import Mathlib

/-!
Verification of the Nutmeg `Model.cpp` core: the dual-backend problem data,
the SCIP original/transformed lifecycle callbacks, model construction,
destruction, and the `minimize` dispatch.

The embedding models the SCIP backend symbolically: variable and constraint
handles are syntax trees recording how they were obtained, and every backend
call that acquires or releases a handle is recorded as an event.  Resource
accounting is then a fold over the event trace.
-/

namespace Nutmeg

/-- A SCIP variable handle.  `base id` is a handle returned by
`SCIPcreateVarBasic`; `negOf v` is the negation view returned by
`SCIPgetNegatedVar`; `transOf v` is the transformed-problem counterpart
returned by `SCIPtransformVar`. -/
inductive SCIP_VAR where
  | base (id : Nat)
  | negOf (v : SCIP_VAR)
  | transOf (v : SCIP_VAR)
deriving DecidableEq

/-- `SCIPgetNegatedVar`: the negation view of a variable.  Negation is an
involution in SCIP, so negating a negation view returns the original. -/
def SCIPgetNegatedVar : SCIP_VAR → SCIP_VAR
  | SCIP_VAR.negOf v => v
  | v => SCIP_VAR.negOf v

/-- A SCIP constraint handle.  `basic id` is returned by
`SCIPcreateConsBasicGeas`; `transOf c` by `SCIPtransformCons`. -/
inductive SCIP_CONS where
  | basic (id : Nat)
  | transOf (c : SCIP_CONS)
deriving DecidableEq

/-- A Geas boolean atom: the `at_False`/`at_True` constants or a fresh atom. -/
inductive CpAtom where
  | at_False
  | at_True
  | atom (id : Nat)
deriving DecidableEq

/-- A Geas integer variable as returned by `new_intvar(lb, ub)`. -/
structure GeasIntVar where
  id : Nat
  lb : Int
  ub : Int
deriving DecidableEq

/-- One call into the SCIP backend that matters for handle accounting.
`createVar`/`transformVar` acquire a variable handle for the caller;
`getNegated` does not (negation views are not captured);
`createCons`/`transformCons` acquire a constraint handle;
`releaseVar`/`releaseCons` give one handle back;
`allocBlock`/`freeBlock` are `SCIPallocBlockMemory`/`SCIPfreeBlockMemory`. -/
inductive MipEvent where
  | createVar (v : SCIP_VAR)
  | addVar (v : SCIP_VAR)
  | getNegated (src dst : SCIP_VAR)
  | transformVar (src dst : SCIP_VAR)
  | releaseVar (v : SCIP_VAR)
  | createCons (c : SCIP_CONS)
  | addCons (c : SCIP_CONS)
  | transformCons (src dst : SCIP_CONS)
  | releaseCons (c : SCIP_CONS)
  | allocBlock
  | freeBlock
  | freeScip
deriving DecidableEq

/-- The coordination table `ProblemData`: for every model-level variable its
handles in both backends, the negation-aliasing index table, bounds and
names, plus the objective index and the Geas propagation constraint.
Field names follow `ProblemData` in the source. -/
structure ProblemData where
  mip_bool_vars : List SCIP_VAR
  mip_neg_vars_idx : List Int
  cp_bool_vars : List CpAtom
  bool_vars_name : List String
  mip_int_vars : List (Option SCIP_VAR)
  mip_indicator_vars_idx : List (Option Int)
  cp_int_vars : List GeasIntVar
  int_vars_lb : List Int
  int_vars_ub : List Int
  int_vars_name : List String
  obj_var_idx : Int
  cp_cons : Option SCIP_CONS
deriving DecidableEq

/-- `ProblemData::nb_bool_vars()`: the length of the boolean-variable table. -/
def ProblemData.nb_bool_vars (d : ProblemData) : Nat :=
  d.mip_bool_vars.length

/-- The aliasing index `mip_neg_vars_idx_[i]` (0 when out of range). -/
def ProblemData.neg_idx (d : ProblemData) (i : Nat) : Int :=
  d.mip_neg_vars_idx.getD i 0

/-- The MIP handle of boolean variable `i` (`base 0` when out of range). -/
def ProblemData.bool_var (d : ProblemData) (i : Nat) : SCIP_VAR :=
  d.mip_bool_vars.getD i (SCIP_VAR.base 0)

/-- Modelled from the spec: `ProblemData::is_pos_var` lives in the missing
`ProblemData.h`.  The spec calls an entry positive when it is a genuine
variable rather than an aliased negation and requires the positive member of
a pair to sit at the smaller index.  The constructor in `Model.cpp` (in src)
records `neg_idx[0] = 1` for the positive sentinel `false` — the entry a
positive variable's `neg_idx` holds is the index of its negation — so the
reading consistent with the source callbacks (the transform callback's
negative branch asserts `neg_idx[idx] < idx`, the destructor must release the
handle created for `false`) is: entry `i` is positive when
`neg_idx[i] ≥ i`, with equality exactly when no negation exists yet. -/
def ProblemData.is_pos_var (d : ProblemData) (i : Nat) : Bool :=
  (i : Int) ≤ d.neg_idx i

/-- One iteration of the boolean-variable loop of `callback_probtrans`:
a positive entry is transformed in place via `SCIPtransformVar`, an aliased
entry is re-derived as `SCIPgetNegatedVar` of the entry at `neg_idx[idx]`
(already transformed when `neg_idx[idx] < idx`). -/
def transBoolStep (d : ProblemData) (idx : Nat) : ProblemData × MipEvent :=
  if d.is_pos_var idx then
    let v := d.bool_var idx
    let tv := SCIP_VAR.transOf v
    ({ d with mip_bool_vars := d.mip_bool_vars.set idx tv },
     MipEvent.transformVar v tv)
  else
    let pos_idx := (d.neg_idx idx).toNat
    let pv := d.bool_var pos_idx
    let nv := SCIPgetNegatedVar pv
    ({ d with mip_bool_vars := d.mip_bool_vars.set idx nv },
     MipEvent.getNegated pv nv)

/-- The boolean-variable loop of `callback_probtrans`, run for indices
`0, 1, ..., k-1` in increasing order. -/
def transBoolsUpTo (d : ProblemData) : Nat → ProblemData × List MipEvent
  | 0 => (d, [])
  | k + 1 =>
    let r := transBoolsUpTo d k
    let s := transBoolStep r.1 k
    (s.1, r.2 ++ [s.2])

/-- The integer-variable loop of `callback_probtrans`: every present handle
is transformed in place, absent handles are skipped. -/
def transIntsGo : List (Option SCIP_VAR) → List (Option SCIP_VAR) × List MipEvent
  | [] => ([], [])
  | none :: rest =>
    let r := transIntsGo rest
    (none :: r.1, r.2)
  | some v :: rest =>
    let r := transIntsGo rest
    (some (SCIP_VAR.transOf v) :: r.1,
     MipEvent.transformVar v (SCIP_VAR.transOf v) :: r.2)

/-- `callback_probtrans`: duplicate the problem data (one block allocation),
transform the CP constraint if present, then the boolean variables in
increasing index order, then the present integer variables.  Returns the
transformed copy and the trace of backend calls. -/
def callback_probtrans (sourcedata : ProblemData) : ProblemData × List MipEvent :=
  let consStep :=
    match sourcedata.cp_cons with
    | some c =>
      ({ sourcedata with cp_cons := some (SCIP_CONS.transOf c) },
       [MipEvent.transformCons c (SCIP_CONS.transOf c)])
    | none => (sourcedata, ([] : List MipEvent))
  let boolStep := transBoolsUpTo consStep.1 consStep.1.nb_bool_vars
  let intStep := transIntsGo boolStep.1.mip_int_vars
  ({ boolStep.1 with mip_int_vars := intStep.1 },
   MipEvent.allocBlock :: (consStep.2 ++ boolStep.2 ++ intStep.2))

/-- The boolean-variable loop of `callback_probdeltrans` (also of
`Model::~Model`): release the handle of every positive entry, indices
walked in increasing order; aliased entries are skipped. -/
def releaseBoolsUpTo (d : ProblemData) : Nat → List MipEvent
  | 0 => []
  | k + 1 =>
    releaseBoolsUpTo d k ++
      (if d.is_pos_var k then [MipEvent.releaseVar (d.bool_var k)] else [])

/-- The integer-variable loop of `callback_probdeltrans` (also of
`Model::~Model`): release every present handle. -/
def releaseIntsGo : List (Option SCIP_VAR) → List MipEvent
  | [] => []
  | none :: rest => releaseIntsGo rest
  | some v :: rest => MipEvent.releaseVar v :: releaseIntsGo rest

/-- `callback_probdeltrans`: release the transformed CP constraint if
present, then the positive boolean variable handles, then the present
integer variable handles, then destroy the duplicated problem data
(one block free).  Returns the trace of backend calls. -/
def callback_probdeltrans (d : ProblemData) : List MipEvent :=
  (d.cp_cons.map MipEvent.releaseCons).toList ++
    releaseBoolsUpTo d d.nb_bool_vars ++
    releaseIntsGo d.mip_int_vars ++
    [MipEvent.freeBlock]

/-- Modelled from the spec: the `Status` enumeration lives in the missing
`Model.h`; the spec lists the aggregate statuses Unknown, Feasible, Optimal
and Infeasible. -/
inductive Status where
  | Unknown
  | Feasible
  | Optimal
  | Infeasible
deriving DecidableEq

/-- An extended value standing in for the C++ `Float` objective fields,
which are initialized to plus/minus `Infinity`. -/
inductive FloatVal where
  | negInf
  | fin (q : ℚ)
  | posInf
deriving DecidableEq

/-- The `Infinity` constant used to initialize the incumbent objective. -/
def Infinity : FloatVal := FloatVal.posInf

/-- Modelled from the spec: the `Method` enumeration lives in the missing
`Model.h`.  The four selectors (branch-and-cut, logic-based Benders
decomposition, pure MIP, pure CP) are modelled as the underlying integers of
a C++ `enum class` in declaration order, so that out-of-range selector
values — reachable by casting in C++ and handled by the final `err` branch
of `Model::minimize` — are expressible. -/
def Method_BC : Int := 0

/-- Logic-based Benders decomposition selector. -/
def Method_LBBD : Int := 1

/-- Pure MIP selector. -/
def Method_MIP : Int := 2

/-- Pure CP selector. -/
def Method_CP : Int := 3

/-- The `Model` object: the configured method, the problem data, the
aggregate solve state and the timer fields.  Engine pointers are implicit in
the event traces; C++ `Float` timing fields are modelled as rationals and
`clock_t` as an integer. -/
structure Model where
  method : Int
  probdata : ProblemData
  status : Status
  obj : FloatVal
  obj_bound : FloatVal
  time_limit : ℚ
  start_time : Int
  run_time : ℚ
deriving DecidableEq

/-- `Model::Model`: build the sentinel entries — boolean `false` (a fresh
binary MIP variable, Geas `at_False`, `neg_idx` 1), boolean `true` (the
SCIP negation view of `false`, Geas `at_True`, `neg_idx` 0), integer `zero`
(a fresh MIP variable and a Geas variable with bounds `[0,0]`, set as the
objective) — and, in branch-and-cut mode, create and add the single Geas
propagation constraint.  Status and incumbent fields are initialized as in
the member-initializer list.  Returns the model and the trace of
handle-relevant backend calls. -/
def Model.construct (method : Int) : Model × List MipEvent :=
  let falseVar : SCIP_VAR := SCIP_VAR.base 0
  let trueVar : SCIP_VAR := SCIPgetNegatedVar falseVar
  let zeroVar : SCIP_VAR := SCIP_VAR.base 1
  let d0 : ProblemData :=
    { mip_bool_vars := [falseVar, trueVar]
      mip_neg_vars_idx := [1, 0]
      cp_bool_vars := [CpAtom.at_False, CpAtom.at_True]
      bool_vars_name := ["false", "true"]
      mip_int_vars := [some zeroVar]
      mip_indicator_vars_idx := [none]
      cp_int_vars := [⟨0, 0, 0⟩]
      int_vars_lb := [0]
      int_vars_ub := [0]
      int_vars_name := ["0"]
      obj_var_idx := 0
      cp_cons := none }
  let baseEvents : List MipEvent :=
    [MipEvent.createVar falseVar, MipEvent.addVar falseVar,
     MipEvent.getNegated falseVar trueVar,
     MipEvent.createVar zeroVar, MipEvent.addVar zeroVar]
  let geasCons : SCIP_CONS := SCIP_CONS.basic 0
  if method = Method_BC then
    ({ method := method
       probdata := { d0 with cp_cons := some geasCons }
       status := Status.Unknown
       obj := Infinity
       obj_bound := FloatVal.negInf
       time_limit := 0
       start_time := 0
       run_time := 0 },
     baseEvents ++ [MipEvent.createCons geasCons, MipEvent.addCons geasCons])
  else
    ({ method := method
       probdata := d0
       status := Status.Unknown
       obj := Infinity
       obj_bound := FloatVal.negInf
       time_limit := 0
       start_time := 0
       run_time := 0 },
     baseEvents)

/-- `Model::~Model`: release the Geas constraint if present, then the
positive boolean variable handles, then the present integer variable
handles, then destroy the SCIP engine (`SCIPfree`);
`BMScheckEmptyMemory` afterwards demands that no block memory is left. -/
def destructorEvents (d : ProblemData) : List MipEvent :=
  (d.cp_cons.map MipEvent.releaseCons).toList ++
    releaseBoolsUpTo d d.nb_bool_vars ++
    releaseIntsGo d.mip_int_vars ++
    [MipEvent.freeScip]

/-- The `CLOCKS_PER_SEC` divisor of `Model::get_cpu_time`. -/
def CLOCKS_PER_SEC : Int := 1000000

/-- `Model::start_timer`: `release_assert(time_limit > 0)` (a fatal
contract-violation diagnostic otherwise), then record the time limit and
the `clock()` baseline `now`. -/
def Model.start_timer (m : Model) (time_limit : ℚ) (now : Int) :
    Except String Model :=
  if 0 < time_limit then
    Except.ok { m with time_limit := time_limit, start_time := now }
  else
    Except.error "Time limit is invalid"

/-- `Model::get_cpu_time`: seconds elapsed since the recorded baseline. -/
def Model.get_cpu_time (m : Model) (now : Int) : ℚ :=
  ((now - m.start_time : Int) : ℚ) / (CLOCKS_PER_SEC : ℚ)

/-- `Model::get_time_remaining`: the time limit minus the elapsed time. -/
def Model.get_time_remaining (m : Model) (now : Int) : ℚ :=
  m.time_limit - m.get_cpu_time now

/-- The four solving strategies `Model::minimize` can dispatch to. -/
inductive Strategy where
  | bc
  | lbbd
  | mip
  | cp
deriving DecidableEq

/-- Modelled from the spec: the bodies of the four `minimize_using_*`
strategies are out of src; per the spec, `minimize` starts the CPU timer
(recording the baseline and the time limit and validating
`time_limit > 0`), which the source places in `Model::start_timer`; the
search that follows is an opaque collaborator and is not modelled. -/
def minimize_using (m : Model) (time_limit : ℚ) (now : Int) :
    Except String Model :=
  m.start_timer time_limit now

/-- The strategy that each valid method selector dispatches to. -/
def strategyFor (method : Int) : Strategy :=
  if method = Method_BC then Strategy.bc
  else if method = Method_LBBD then Strategy.lbbd
  else if method = Method_MIP then Strategy.mip
  else Strategy.cp

/-- `Model::minimize`: dispatch on the configured method to exactly one of
the four strategies; any other selector hits the `err` branch, a fatal
diagnostic.  The unused `obj_var` argument is consumed by the opaque
strategy bodies. -/
def Model.minimize (m : Model) (obj_var : Int) (time_limit : ℚ) (now : Int) :
    Except String (Strategy × Model) :=
  if m.method = Method_BC then
    (minimize_using m time_limit now).map (fun m2 => (Strategy.bc, m2))
  else if m.method = Method_LBBD then
    (minimize_using m time_limit now).map (fun m2 => (Strategy.lbbd, m2))
  else if m.method = Method_MIP then
    (minimize_using m time_limit now).map (fun m2 => (Strategy.mip, m2))
  else if m.method = Method_CP then
    (minimize_using m time_limit now).map (fun m2 => (Strategy.cp, m2))
  else
    Except.error ("Invalid method " ++ toString m.method)

/-- The caller-held backend resources: variable handles, constraint handles
(one list entry per capture) and outstanding block-memory allocations. -/
structure ScipLedger where
  vars : List SCIP_VAR
  conss : List SCIP_CONS
  blocks : Nat
deriving DecidableEq

/-- The ledger before any backend call. -/
def emptyLedger : ScipLedger := ⟨[], [], 0⟩

/-- How one backend call changes the caller-held resources.
`SCIPaddVar`/`SCIPaddCons` capture references owned by the engine itself
(given back by `SCIPfree`), and `SCIPgetNegatedVar` does not capture, so
neither touches the caller's ledger. -/
def applyEvent (L : ScipLedger) : MipEvent → ScipLedger
  | MipEvent.createVar v => { L with vars := v :: L.vars }
  | MipEvent.transformVar _ dst => { L with vars := dst :: L.vars }
  | MipEvent.releaseVar v => { L with vars := L.vars.erase v }
  | MipEvent.createCons c => { L with conss := c :: L.conss }
  | MipEvent.transformCons _ dst => { L with conss := dst :: L.conss }
  | MipEvent.releaseCons c => { L with conss := L.conss.erase c }
  | MipEvent.allocBlock => { L with blocks := L.blocks + 1 }
  | MipEvent.freeBlock => { L with blocks := L.blocks - 1 }
  | _ => L

/-- Folding a whole trace of backend calls over the ledger. -/
def applyTrace (L : ScipLedger) (tr : List MipEvent) : ScipLedger :=
  tr.foldl applyEvent L

/-- The variable handles a trace acquires for the caller, in call order. -/
def acquiredVars (tr : List MipEvent) : List SCIP_VAR :=
  tr.filterMap fun e =>
    match e with
    | MipEvent.createVar v => some v
    | MipEvent.transformVar _ dst => some dst
    | _ => none

/-- The variable handles a trace releases, in call order. -/
def releasedVars (tr : List MipEvent) : List SCIP_VAR :=
  tr.filterMap fun e =>
    match e with
    | MipEvent.releaseVar v => some v
    | _ => none

/-- The constraint handles a trace acquires for the caller, in call order. -/
def acquiredConss (tr : List MipEvent) : List SCIP_CONS :=
  tr.filterMap fun e =>
    match e with
    | MipEvent.createCons c => some c
    | MipEvent.transformCons _ dst => some dst
    | _ => none

/-- The constraint handles a trace releases, in call order. -/
def releasedConss (tr : List MipEvent) : List SCIP_CONS :=
  tr.filterMap fun e =>
    match e with
    | MipEvent.releaseCons c => some c
    | _ => none

/-- Modelled from the spec: `ProblemData::create_boolean_variable` is in the
missing `ProblemData.h`/`.cpp`.  Per the spec it appends a genuine positive
entry — a fresh MIP binary variable, a fresh Geas atom, the given name —
whose `neg_idx` equals its own index. -/
def ProblemData.create_boolean_variable (d : ProblemData) (name : String)
    (freshId cpId : Nat) : ProblemData :=
  { d with
    mip_bool_vars := d.mip_bool_vars ++ [SCIP_VAR.base freshId]
    mip_neg_vars_idx := d.mip_neg_vars_idx ++ [(d.nb_bool_vars : Int)]
    cp_bool_vars := d.cp_bool_vars ++ [CpAtom.atom cpId]
    bool_vars_name := d.bool_vars_name ++ [name] }

/-- Modelled from the spec: `ProblemData::negate` is in the missing
`ProblemData.h`/`.cpp`.  Per the spec it returns the aliased negative entry
of an existing positive variable, reusing the backend's complement facility
rather than creating a variable from scratch; negating an entry that is
itself a negation, or an out-of-range index, is a contract violation.  The
new entry is appended after its positive counterpart, which records the new
index in its own `neg_idx` slot; an already-existing negation is reused. -/
def ProblemData.negate (d : ProblemData) (i : Nat) :
    Except String (ProblemData × Nat) :=
  if i < d.nb_bool_vars ∧ d.is_pos_var i then
    if d.neg_idx i = (i : Int) then
      Except.ok
        ({ d with
           mip_bool_vars := d.mip_bool_vars ++ [SCIPgetNegatedVar (d.bool_var i)]
           mip_neg_vars_idx :=
             (d.mip_neg_vars_idx.set i (d.nb_bool_vars : Int)) ++ [(i : Int)]
           cp_bool_vars := d.cp_bool_vars ++ [d.cp_bool_vars.getD i CpAtom.at_False]
           bool_vars_name :=
             d.bool_vars_name ++ ["not " ++ d.bool_vars_name.getD i ""] },
         d.nb_bool_vars)
    else
      Except.ok (d, (d.neg_idx i).toNat)
  else
    Except.error "invalid argument"

/-- Modelled from the spec: `ProblemData::create_integer_variable` is in the
missing `ProblemData.h`/`.cpp`.  Per the spec it appends parallel integer
variables in both backends with identical immutable bounds. -/
def ProblemData.create_integer_variable (d : ProblemData) (name : String)
    (lb ub : Int) (freshId cpId : Nat) : ProblemData :=
  { d with
    mip_int_vars := d.mip_int_vars ++ [some (SCIP_VAR.base freshId)]
    mip_indicator_vars_idx := d.mip_indicator_vars_idx ++ [none]
    cp_int_vars := d.cp_int_vars ++ [⟨cpId, lb, ub⟩]
    int_vars_lb := d.int_vars_lb ++ [lb]
    int_vars_ub := d.int_vars_ub ++ [ub]
    int_vars_name := d.int_vars_name ++ [name] }

/-- The aliasing-table invariant: the index table spans the whole
boolean-variable table, every entry is in range, and every entry either
points upward (`neg_idx[i] ≥ i`: the entry is a positive variable, equal to
its own index when no negation exists) or refers to an already-defined
positive variable at a strictly smaller index. -/
def neg_table_inv (d : ProblemData) : Prop :=
  d.mip_neg_vars_idx.length = d.nb_bool_vars ∧
    ∀ i < d.nb_bool_vars,
      0 ≤ d.neg_idx i ∧ d.neg_idx i < (d.nb_bool_vars : Int) ∧
        ((i : Int) ≤ d.neg_idx i ∨
          (d.neg_idx i < (i : Int) ∧ d.is_pos_var (d.neg_idx i).toNat = true))

/-- The sentinel invariant: index 0 of the boolean table is the
constant-false entry, index 1 its aliased negation (constant true), and
index 0 of the integer table is the constant-zero variable with bounds
`[0, 0]`. -/
def sentinels_ok (d : ProblemData) : Prop :=
  d.bool_vars_name.getD 0 "" = "false" ∧
    d.bool_vars_name.getD 1 "" = "true" ∧
    d.cp_bool_vars.getD 0 CpAtom.at_True = CpAtom.at_False ∧
    d.cp_bool_vars.getD 1 CpAtom.at_False = CpAtom.at_True ∧
    d.bool_var 1 = SCIPgetNegatedVar (d.bool_var 0) ∧
    d.neg_idx 0 = 1 ∧
    d.neg_idx 1 = 0 ∧
    2 ≤ d.nb_bool_vars ∧
    2 ≤ d.mip_neg_vars_idx.length ∧
    d.int_vars_lb.getD 0 1 = 0 ∧
    d.int_vars_ub.getD 0 1 = 0 ∧
    d.cp_int_vars.getD 0 ⟨0, 1, 1⟩ = ⟨0, 0, 0⟩ ∧
    1 ≤ d.mip_int_vars.length

instance (d : ProblemData) : Decidable (neg_table_inv d) := by
  unfold neg_table_inv; infer_instance

instance (d : ProblemData) : Decidable (sentinels_ok d) := by
  unfold sentinels_ok; infer_instance

theorem getD_set_ne {α : Type} (l : List α) (i j : Nat) (a dflt : α)
    (h : i ≠ j) : (l.set j a).getD i dflt = l.getD i dflt := by
  simp [List.getD_eq_getElem?_getD, List.getElem?_set_ne (Ne.symm h)]

theorem getD_set_eq {α : Type} (l : List α) (j : Nat) (a dflt : α)
    (h : j < l.length) : (l.set j a).getD j dflt = a := by
  simp [List.getD_eq_getElem?_getD, List.getElem?_set_self, h]

theorem filterMap_ite {α β : Type} (p : α → Bool) (g : α → β) (l : List α) :
    (l.filterMap fun a => if p a then some (g a) else none) =
      (l.filter p).map g := by
  induction l with
  | nil => rfl
  | cons a l ih =>
    by_cases h : p a <;> simp [List.filterMap_cons, List.filter_cons, h, ih]

theorem transBoolStep_neg (d : ProblemData) (idx : Nat) :
    (transBoolStep d idx).1.mip_neg_vars_idx = d.mip_neg_vars_idx := by
  unfold transBoolStep; split <;> rfl

theorem transBoolStep_cp_cons (d : ProblemData) (idx : Nat) :
    (transBoolStep d idx).1.cp_cons = d.cp_cons := by
  unfold transBoolStep; split <;> rfl

theorem transBoolStep_ints (d : ProblemData) (idx : Nat) :
    (transBoolStep d idx).1.mip_int_vars = d.mip_int_vars := by
  unfold transBoolStep; split <;> rfl

theorem transBoolStep_length (d : ProblemData) (idx : Nat) :
    (transBoolStep d idx).1.nb_bool_vars = d.nb_bool_vars := by
  unfold transBoolStep ProblemData.nb_bool_vars; split <;> simp

theorem transBoolStep_is_pos (d : ProblemData) (idx i : Nat) :
    (transBoolStep d idx).1.is_pos_var i = d.is_pos_var i := by
  unfold ProblemData.is_pos_var ProblemData.neg_idx
  rw [transBoolStep_neg]

theorem transBoolStep_neg_idx (d : ProblemData) (idx i : Nat) :
    (transBoolStep d idx).1.neg_idx i = d.neg_idx i := by
  unfold ProblemData.neg_idx
  rw [transBoolStep_neg]

theorem transBoolStep_bool_var_ne (d : ProblemData) (idx i : Nat)
    (h : i ≠ idx) : (transBoolStep d idx).1.bool_var i = d.bool_var i := by
  unfold transBoolStep ProblemData.bool_var
  split <;> simp only [] <;> exact getD_set_ne _ _ _ _ _ h

theorem transBoolsUpTo_neg (d : ProblemData) (k : Nat) :
    (transBoolsUpTo d k).1.mip_neg_vars_idx = d.mip_neg_vars_idx := by
  induction k with
  | zero => rfl
  | succ k ih => unfold transBoolsUpTo; rw [transBoolStep_neg, ih]

theorem transBoolsUpTo_cp_cons (d : ProblemData) (k : Nat) :
    (transBoolsUpTo d k).1.cp_cons = d.cp_cons := by
  induction k with
  | zero => rfl
  | succ k ih => unfold transBoolsUpTo; rw [transBoolStep_cp_cons, ih]

theorem transBoolsUpTo_ints (d : ProblemData) (k : Nat) :
    (transBoolsUpTo d k).1.mip_int_vars = d.mip_int_vars := by
  induction k with
  | zero => rfl
  | succ k ih => unfold transBoolsUpTo; rw [transBoolStep_ints, ih]

theorem transBoolsUpTo_length (d : ProblemData) (k : Nat) :
    (transBoolsUpTo d k).1.nb_bool_vars = d.nb_bool_vars := by
  induction k with
  | zero => rfl
  | succ k ih => unfold transBoolsUpTo; rw [transBoolStep_length, ih]

theorem transBoolsUpTo_is_pos (d : ProblemData) (k i : Nat) :
    (transBoolsUpTo d k).1.is_pos_var i = d.is_pos_var i := by
  unfold ProblemData.is_pos_var ProblemData.neg_idx
  rw [transBoolsUpTo_neg]

theorem transBoolsUpTo_neg_idx (d : ProblemData) (k i : Nat) :
    (transBoolsUpTo d k).1.neg_idx i = d.neg_idx i := by
  unfold ProblemData.neg_idx
  rw [transBoolsUpTo_neg]

theorem transBoolsUpTo_untouched (d : ProblemData) (k : Nat) :
    ∀ i, k ≤ i → (transBoolsUpTo d k).1.bool_var i = d.bool_var i := by
  induction k with
  | zero => intro i _; rfl
  | succ k ih =>
    intro i hi
    unfold transBoolsUpTo
    rw [transBoolStep_bool_var_ne _ _ _ (by omega)]
    exact ih i (by omega)

theorem transBoolsUpTo_succ (d : ProblemData) (k : Nat) :
    transBoolsUpTo d (k + 1) =
      ((transBoolStep (transBoolsUpTo d k).1 k).1,
        (transBoolsUpTo d k).2 ++ [(transBoolStep (transBoolsUpTo d k).1 k).2]) := by
  rfl

theorem transBoolsUpTo_pos_slot (d : ProblemData) (k : Nat)
    (hk : k ≤ d.nb_bool_vars) :
    ∀ i, i < k → d.is_pos_var i = true →
      (transBoolsUpTo d k).1.bool_var i = SCIP_VAR.transOf (d.bool_var i) := by
  induction k with
  | zero => intro i hi _; omega
  | succ k ih =>
    intro i hi hpos
    rw [transBoolsUpTo_succ]
    by_cases hik : i = k
    · subst hik
      have hstep_pos : (transBoolsUpTo d i).1.is_pos_var i = true := by
        rw [transBoolsUpTo_is_pos]; exact hpos
      simp only [transBoolStep, hstep_pos, if_true]
      unfold ProblemData.bool_var
      rw [getD_set_eq]
      · have h := transBoolsUpTo_untouched d i i (le_refl i)
        unfold ProblemData.bool_var at h
        rw [h]
      · have h1 := transBoolsUpTo_length d i
        unfold ProblemData.nb_bool_vars at h1 hk
        omega
    · rw [transBoolStep_bool_var_ne _ _ _ hik]
      exact ih (by omega) i (by omega) hpos

theorem transBoolsUpTo_neg_slot (d : ProblemData) (hinv : neg_table_inv d)
    (k : Nat) (hk : k ≤ d.nb_bool_vars) :
    ∀ i, i < k → d.is_pos_var i = false →
      (transBoolsUpTo d k).1.bool_var i =
        SCIPgetNegatedVar (SCIP_VAR.transOf (d.bool_var (d.neg_idx i).toNat)) := by
  induction k with
  | zero => intro i hi _; omega
  | succ k ih =>
    intro i hi hneg
    rw [transBoolsUpTo_succ]
    by_cases hik : i = k
    · subst hik
      have hstep_neg : (transBoolsUpTo d i).1.is_pos_var i = false := by
        rw [transBoolsUpTo_is_pos]; exact hneg
      simp only [transBoolStep, hstep_neg, Bool.false_eq_true, if_false]
      have hiub : i < d.nb_bool_vars := by omega
      obtain ⟨-, hbound⟩ := hinv
      obtain ⟨h0, _, hdisj⟩ := hbound i hiub
      have hlt : d.neg_idx i < (i : Int) := by
        rcases hdisj with hge | ⟨hlt, _⟩
        · exfalso
          unfold ProblemData.is_pos_var at hneg
          rw [decide_eq_false_iff_not] at hneg
          exact hneg hge
        · exact hlt
      have hposat : d.is_pos_var (d.neg_idx i).toNat = true := by
        rcases hdisj with hge | ⟨_, hp⟩
        · exfalso
          unfold ProblemData.is_pos_var at hneg
          rw [decide_eq_false_iff_not] at hneg
          exact hneg hge
        · exact hp
      have htn : (d.neg_idx i).toNat < i := by omega
      unfold ProblemData.bool_var
      rw [getD_set_eq]
      · rw [transBoolsUpTo_neg_idx]
        have hslot :
            (transBoolsUpTo d i).1.bool_var (d.neg_idx i).toNat =
              SCIP_VAR.transOf (d.bool_var (d.neg_idx i).toNat) :=
          transBoolsUpTo_pos_slot d i (by omega) _ htn hposat
        unfold ProblemData.bool_var at hslot
        rw [hslot]
      · have h1 := transBoolsUpTo_length d i
        unfold ProblemData.nb_bool_vars at h1 hk
        omega
    · rw [transBoolStep_bool_var_ne _ _ _ hik]
      exact ih (by omega) i (by omega) hneg

/-- The event emitted for boolean index `i` by the transform loop, in
closed form: positive entries are transformed, aliased entries re-derived
as the complement of the already-transformed positive variable. -/
def transBoolEvent (d : ProblemData) (i : Nat) : MipEvent :=
  if d.is_pos_var i then
    MipEvent.transformVar (d.bool_var i) (SCIP_VAR.transOf (d.bool_var i))
  else
    MipEvent.getNegated (SCIP_VAR.transOf (d.bool_var (d.neg_idx i).toNat))
      (SCIPgetNegatedVar (SCIP_VAR.transOf (d.bool_var (d.neg_idx i).toNat)))

theorem transBoolsUpTo_trace (d : ProblemData) (hinv : neg_table_inv d)
    (k : Nat) (hk : k ≤ d.nb_bool_vars) :
    (transBoolsUpTo d k).2 = (List.range k).map (transBoolEvent d) := by
  induction k with
  | zero => rfl
  | succ k ih =>
    rw [transBoolsUpTo_succ]
    simp only [List.range_succ, List.map_append, List.map_cons, List.map_nil]
    rw [ih (by omega)]
    congr 1
    by_cases hpos : d.is_pos_var k
    · have hstep_pos : (transBoolsUpTo d k).1.is_pos_var k = true := by
        rw [transBoolsUpTo_is_pos]; exact hpos
      simp only [transBoolStep, hstep_pos, if_true, transBoolEvent, hpos]
      rw [transBoolsUpTo_untouched d k k (le_refl k)]
    · have hneg : d.is_pos_var k = false := by
        simp only [Bool.not_eq_true] at hpos; exact hpos
      have hstep_neg : (transBoolsUpTo d k).1.is_pos_var k = false := by
        rw [transBoolsUpTo_is_pos]; exact hneg
      simp only [transBoolStep, hstep_neg, Bool.false_eq_true, if_false,
        transBoolEvent, hneg]
      have hiub : k < d.nb_bool_vars := by omega
      obtain ⟨-, hbound⟩ := hinv
      obtain ⟨h0, _, hdisj⟩ := hbound k hiub
      have hlt : d.neg_idx k < (k : Int) := by
        rcases hdisj with hge | ⟨hlt, _⟩
        · exfalso
          unfold ProblemData.is_pos_var at hneg
          rw [decide_eq_false_iff_not] at hneg
          exact hneg hge
        · exact hlt
      have hposat : d.is_pos_var (d.neg_idx k).toNat = true := by
        rcases hdisj with hge | ⟨_, hp⟩
        · exfalso
          unfold ProblemData.is_pos_var at hneg
          rw [decide_eq_false_iff_not] at hneg
          exact hneg hge
        · exact hp
      rw [transBoolsUpTo_neg_idx]
      rw [transBoolsUpTo_pos_slot d k (by omega) _ (by omega) hposat]

theorem transIntsGo_fst (l : List (Option SCIP_VAR)) :
    (transIntsGo l).1 = l.map (Option.map SCIP_VAR.transOf) := by
  induction l with
  | nil => rfl
  | cons o rest ih =>
    cases o <;> simp [transIntsGo, ih]

theorem transIntsGo_snd (l : List (Option SCIP_VAR)) :
    (transIntsGo l).2 =
      l.filterMap
        (Option.map fun v => MipEvent.transformVar v (SCIP_VAR.transOf v)) := by
  induction l with
  | nil => rfl
  | cons o rest ih =>
    cases o <;> simp [transIntsGo, ih, List.filterMap_cons]

theorem releaseBoolsUpTo_eq (d : ProblemData) (k : Nat) :
    releaseBoolsUpTo d k =
      ((List.range k).filter d.is_pos_var).map
        (fun i => MipEvent.releaseVar (d.bool_var i)) := by
  induction k with
  | zero => rfl
  | succ k ih =>
    rw [List.range_succ]
    by_cases h : d.is_pos_var k <;>
      simp [releaseBoolsUpTo, ih, List.filter_append, h]

theorem releaseIntsGo_eq (l : List (Option SCIP_VAR)) :
    releaseIntsGo l = l.filterMap (Option.map MipEvent.releaseVar) := by
  induction l with
  | nil => rfl
  | cons o rest ih =>
    cases o <;> simp [releaseIntsGo, ih, List.filterMap_cons]

theorem applyTrace_append (L : ScipLedger) (t1 t2 : List MipEvent) :
    applyTrace L (t1 ++ t2) = applyTrace (applyTrace L t1) t2 :=
  List.foldl_append _ _ _ _

theorem applyEvent_vars (L : ScipLedger) (e : MipEvent) :
    (applyEvent L e).vars =
      match e with
      | MipEvent.createVar v => v :: L.vars
      | MipEvent.transformVar _ dst => dst :: L.vars
      | MipEvent.releaseVar v => L.vars.erase v
      | _ => L.vars := by
  cases e <;> rfl

theorem applyEvent_conss (L : ScipLedger) (e : MipEvent) :
    (applyEvent L e).conss =
      match e with
      | MipEvent.createCons c => c :: L.conss
      | MipEvent.transformCons _ dst => dst :: L.conss
      | MipEvent.releaseCons c => L.conss.erase c
      | _ => L.conss := by
  cases e <;> rfl

theorem applyEvent_blocks (L : ScipLedger) (e : MipEvent) :
    (applyEvent L e).blocks =
      match e with
      | MipEvent.allocBlock => L.blocks + 1
      | MipEvent.freeBlock => L.blocks - 1
      | _ => L.blocks := by
  cases e <;> rfl

theorem applyTrace_vars_of_no_release (tr : List MipEvent)
    (h : releasedVars tr = []) (L : ScipLedger) :
    (applyTrace L tr).vars = (acquiredVars tr).reverse ++ L.vars := by
  induction tr generalizing L with
  | nil => rfl
  | cons e tr ih =>
    have hrest : releasedVars tr = [] := by
      unfold releasedVars at h ⊢
      cases e <;> simp_all [List.filterMap_cons]
    have happly : applyTrace L (e :: tr) = applyTrace (applyEvent L e) tr := rfl
    rw [happly, ih hrest]
    cases e <;>
      simp_all [acquiredVars, releasedVars, applyEvent, List.filterMap_cons]

theorem applyTrace_vars_of_no_acquire (tr : List MipEvent)
    (h : acquiredVars tr = []) (L : ScipLedger) :
    (applyTrace L tr).vars = (releasedVars tr).foldl List.erase L.vars := by
  induction tr generalizing L with
  | nil => rfl
  | cons e tr ih =>
    have hrest : acquiredVars tr = [] := by
      unfold acquiredVars at h ⊢
      cases e <;> simp_all [List.filterMap_cons]
    have happly : applyTrace L (e :: tr) = applyTrace (applyEvent L e) tr := rfl
    rw [happly, ih hrest]
    cases e <;>
      simp_all [acquiredVars, releasedVars, applyEvent, List.filterMap_cons]

theorem applyTrace_conss_of_no_release (tr : List MipEvent)
    (h : releasedConss tr = []) (L : ScipLedger) :
    (applyTrace L tr).conss = (acquiredConss tr).reverse ++ L.conss := by
  induction tr generalizing L with
  | nil => rfl
  | cons e tr ih =>
    have hrest : releasedConss tr = [] := by
      unfold releasedConss at h ⊢
      cases e <;> simp_all [List.filterMap_cons]
    have happly : applyTrace L (e :: tr) = applyTrace (applyEvent L e) tr := rfl
    rw [happly, ih hrest]
    cases e <;>
      simp_all [acquiredConss, releasedConss, applyEvent, List.filterMap_cons]

theorem applyTrace_conss_of_no_acquire (tr : List MipEvent)
    (h : acquiredConss tr = []) (L : ScipLedger) :
    (applyTrace L tr).conss = (releasedConss tr).foldl List.erase L.conss := by
  induction tr generalizing L with
  | nil => rfl
  | cons e tr ih =>
    have hrest : acquiredConss tr = [] := by
      unfold acquiredConss at h ⊢
      cases e <;> simp_all [List.filterMap_cons]
    have happly : applyTrace L (e :: tr) = applyTrace (applyEvent L e) tr := rfl
    rw [happly, ih hrest]
    cases e <;>
      simp_all [acquiredConss, releasedConss, applyEvent, List.filterMap_cons]

theorem applyTrace_blocks_of_no_free (tr : List MipEvent)
    (h : tr.count MipEvent.freeBlock = 0) (L : ScipLedger) :
    (applyTrace L tr).blocks = L.blocks + tr.count MipEvent.allocBlock := by
  induction tr generalizing L with
  | nil => rfl
  | cons e tr ih =>
    have hrest : tr.count MipEvent.freeBlock = 0 := by
      rw [List.count_cons] at h; omega
    have happly : applyTrace L (e :: tr) = applyTrace (applyEvent L e) tr := rfl
    rw [happly, ih hrest, List.count_cons]
    cases e <;> simp_all [applyEvent, List.count_cons] <;> omega

theorem applyTrace_blocks_of_no_alloc (tr : List MipEvent)
    (h : tr.count MipEvent.allocBlock = 0) (L : ScipLedger) :
    (applyTrace L tr).blocks = L.blocks - tr.count MipEvent.freeBlock := by
  induction tr generalizing L with
  | nil => rfl
  | cons e tr ih =>
    have hrest : tr.count MipEvent.allocBlock = 0 := by
      rw [List.count_cons] at h; omega
    have happly : applyTrace L (e :: tr) = applyTrace (applyEvent L e) tr := rfl
    rw [happly, ih hrest, List.count_cons]
    cases e <;> simp_all [applyEvent, List.count_cons] <;> omega

theorem foldl_erase_perm {α : Type} [DecidableEq α] :
    ∀ (as P L : List α), P.Perm as →
      as.foldl List.erase (P ++ L) = L := by
  intro as
  induction as with
  | nil =>
    intro P L hp
    rw [List.perm_nil.mp hp]
    rfl
  | cons a as ih =>
    intro P L hp
    have ha : a ∈ P := hp.mem_iff.mpr (List.mem_cons_self a as)
    have hstep : (P ++ L).erase a = P.erase a ++ L := List.erase_append_left L ha
    have hperm : (P.erase a).Perm as := by
      have := hp.erase a
      rwa [List.erase_cons_head a as] at this
    calc (a :: as).foldl List.erase (P ++ L)
        = as.foldl List.erase ((P ++ L).erase a) := rfl
      _ = as.foldl List.erase (P.erase a ++ L) := by rw [hstep]
      _ = L := ih _ L hperm

theorem transBoolStep_congr (d D : ProblemData)
    (hb : D.mip_bool_vars = d.mip_bool_vars)
    (hn : D.mip_neg_vars_idx = d.mip_neg_vars_idx) (idx : Nat) :
    (transBoolStep D idx).1.mip_bool_vars =
        (transBoolStep d idx).1.mip_bool_vars ∧
      (transBoolStep D idx).2 = (transBoolStep d idx).2 := by
  have hp : D.is_pos_var idx = d.is_pos_var idx := by
    unfold ProblemData.is_pos_var ProblemData.neg_idx; rw [hn]
  have hbv : ∀ j, D.bool_var j = d.bool_var j := by
    intro j; unfold ProblemData.bool_var; rw [hb]
  have hni : D.neg_idx idx = d.neg_idx idx := by
    unfold ProblemData.neg_idx; rw [hn]
  by_cases h : d.is_pos_var idx
  · constructor <;> simp [transBoolStep, h, hp, hb, hbv]
  · have h2 : d.is_pos_var idx = false := by
      simp only [Bool.not_eq_true] at h; exact h
    constructor <;> simp [transBoolStep, hp, h2, hb, hbv, hni]

theorem transBoolsUpTo_congr (d D : ProblemData)
    (hb : D.mip_bool_vars = d.mip_bool_vars)
    (hn : D.mip_neg_vars_idx = d.mip_neg_vars_idx) :
    ∀ k, (transBoolsUpTo D k).1.mip_bool_vars =
        (transBoolsUpTo d k).1.mip_bool_vars ∧
      (transBoolsUpTo D k).2 = (transBoolsUpTo d k).2 := by
  intro k
  induction k with
  | zero => exact ⟨hb, rfl⟩
  | succ k ih =>
    obtain ⟨ihb, iht⟩ := ih
    have hn1 : (transBoolsUpTo D k).1.mip_neg_vars_idx =
        (transBoolsUpTo d k).1.mip_neg_vars_idx := by
      rw [transBoolsUpTo_neg, transBoolsUpTo_neg, hn]
    have hstep := transBoolStep_congr (transBoolsUpTo d k).1
      (transBoolsUpTo D k).1 ihb hn1 k
    rw [transBoolsUpTo_succ, transBoolsUpTo_succ]
    exact ⟨hstep.1, by rw [iht, hstep.2]⟩

/-- Bridge: the transform callback's output, expressed through the plain
fold on the source data (the boolean fold ignores `cp_cons`, which is the
only field the constraint-transform step changes). -/
theorem probtrans_bridge (d : ProblemData) :
    (callback_probtrans d).1.mip_bool_vars =
        (transBoolsUpTo d d.nb_bool_vars).1.mip_bool_vars ∧
      (callback_probtrans d).1.mip_neg_vars_idx = d.mip_neg_vars_idx ∧
      (callback_probtrans d).1.mip_int_vars =
        d.mip_int_vars.map (Option.map SCIP_VAR.transOf) ∧
      (callback_probtrans d).1.cp_cons = d.cp_cons.map SCIP_CONS.transOf ∧
      (callback_probtrans d).2 =
        MipEvent.allocBlock ::
          ((d.cp_cons.map fun c =>
              MipEvent.transformCons c (SCIP_CONS.transOf c)).toList ++
            (transBoolsUpTo d d.nb_bool_vars).2 ++
            (transIntsGo d.mip_int_vars).2) := by
  cases hc : d.cp_cons with
  | none =>
    refine ⟨?_, ?_, ?_, ?_, ?_⟩
    · simp only [callback_probtrans, hc]
    · simp only [callback_probtrans, hc]
      exact transBoolsUpTo_neg _ _
    · simp only [callback_probtrans, hc]
      rw [transIntsGo_fst, transBoolsUpTo_ints]
    · simp only [callback_probtrans, hc]
      rw [transBoolsUpTo_cp_cons]
      exact hc
    · simp only [callback_probtrans, hc]
      rw [transBoolsUpTo_ints]
      rfl
  | some c =>
    have hcongr := transBoolsUpTo_congr d
      { d with cp_cons := some (SCIP_CONS.transOf c) } rfl rfl
    refine ⟨?_, ?_, ?_, ?_, ?_⟩
    · simp only [callback_probtrans, hc]
      exact (hcongr _).1
    · simp only [callback_probtrans, hc]
      exact transBoolsUpTo_neg _ _
    · simp only [callback_probtrans, hc]
      rw [transIntsGo_fst, transBoolsUpTo_ints]
    · simp only [callback_probtrans, hc]
      rw [transBoolsUpTo_cp_cons]
      rfl
    · simp only [callback_probtrans, hc]
      rw [transBoolsUpTo_ints, (hcongr _).2]
      rfl

theorem probtrans_data_is_pos (d : ProblemData) (i : Nat) :
    (callback_probtrans d).1.is_pos_var i = d.is_pos_var i := by
  unfold ProblemData.is_pos_var ProblemData.neg_idx
  rw [(probtrans_bridge d).2.1]

theorem probtrans_data_neg_idx (d : ProblemData) (i : Nat) :
    (callback_probtrans d).1.neg_idx i = d.neg_idx i := by
  unfold ProblemData.neg_idx
  rw [(probtrans_bridge d).2.1]

theorem probtrans_data_nb (d : ProblemData) :
    (callback_probtrans d).1.nb_bool_vars = d.nb_bool_vars := by
  unfold ProblemData.nb_bool_vars
  rw [(probtrans_bridge d).1]
  exact transBoolsUpTo_length d _

theorem probtrans_data_pos_slot (d : ProblemData) :
    ∀ i, i < d.nb_bool_vars → d.is_pos_var i = true →
      (callback_probtrans d).1.bool_var i = SCIP_VAR.transOf (d.bool_var i) := by
  intro i hi hpos
  unfold ProblemData.bool_var
  rw [(probtrans_bridge d).1]
  have h := transBoolsUpTo_pos_slot d d.nb_bool_vars (le_refl _) i hi hpos
  unfold ProblemData.bool_var at h
  exact h

theorem probtrans_data_neg_slot (d : ProblemData) (hinv : neg_table_inv d) :
    ∀ i, i < d.nb_bool_vars → d.is_pos_var i = false →
      (callback_probtrans d).1.bool_var i =
        SCIPgetNegatedVar (SCIP_VAR.transOf (d.bool_var (d.neg_idx i).toNat)) := by
  intro i hi hneg
  unfold ProblemData.bool_var
  rw [(probtrans_bridge d).1]
  have h := transBoolsUpTo_neg_slot d hinv d.nb_bool_vars (le_refl _) i hi hneg
  unfold ProblemData.bool_var at h
  exact h

theorem probtrans_trace (d : ProblemData) (hinv : neg_table_inv d) :
    (callback_probtrans d).2 =
      MipEvent.allocBlock ::
        ((d.cp_cons.map fun c =>
            MipEvent.transformCons c (SCIP_CONS.transOf c)).toList ++
          (List.range d.nb_bool_vars).map (transBoolEvent d) ++
          d.mip_int_vars.filterMap
            (Option.map fun v =>
              MipEvent.transformVar v (SCIP_VAR.transOf v))) := by
  rw [(probtrans_bridge d).2.2.2.2,
    transBoolsUpTo_trace d hinv _ (le_refl _), transIntsGo_snd]

theorem acquiredVars_boolEvts (d : ProblemData) (k : Nat) :
    acquiredVars ((List.range k).map (transBoolEvent d)) =
      ((List.range k).filter d.is_pos_var).map
        (fun i => SCIP_VAR.transOf (d.bool_var i)) := by
  induction k with
  | zero => rfl
  | succ k ih =>
    rw [List.range_succ]
    by_cases h : d.is_pos_var k <;>
      simp_all [acquiredVars, transBoolEvent, List.filterMap_append,
        List.filter_append]

theorem releasedVars_boolEvts (d : ProblemData) (k : Nat) :
    releasedVars ((List.range k).map (transBoolEvent d)) = [] := by
  induction k with
  | zero => rfl
  | succ k ih =>
    rw [List.range_succ]
    by_cases h : d.is_pos_var k <;>
      simp_all [releasedVars, transBoolEvent, List.filterMap_append]

theorem acquiredConss_boolEvts (d : ProblemData) (k : Nat) :
    acquiredConss ((List.range k).map (transBoolEvent d)) = [] := by
  induction k with
  | zero => rfl
  | succ k ih =>
    rw [List.range_succ]
    by_cases h : d.is_pos_var k <;>
      simp_all [acquiredConss, transBoolEvent, List.filterMap_append]

theorem releasedConss_boolEvts (d : ProblemData) (k : Nat) :
    releasedConss ((List.range k).map (transBoolEvent d)) = [] := by
  induction k with
  | zero => rfl
  | succ k ih =>
    rw [List.range_succ]
    by_cases h : d.is_pos_var k <;>
      simp_all [releasedConss, transBoolEvent, List.filterMap_append]

theorem count_boolEvts (d : ProblemData) (k : Nat) (e : MipEvent)
    (he : e = MipEvent.allocBlock ∨ e = MipEvent.freeBlock) :
    ((List.range k).map (transBoolEvent d)).count e = 0 := by
  rw [List.count_eq_zero]
  intro hmem
  rw [List.mem_map] at hmem
  obtain ⟨i, -, hi⟩ := hmem
  rcases he with he | he <;>
    · subst he
      unfold transBoolEvent at hi
      by_cases h : d.is_pos_var i <;> simp [h] at hi

theorem acquiredVars_intEvts (l : List (Option SCIP_VAR)) :
    acquiredVars
        (l.filterMap
          (Option.map fun v => MipEvent.transformVar v (SCIP_VAR.transOf v))) =
      l.filterMap (Option.map SCIP_VAR.transOf) := by
  induction l with
  | nil => rfl
  | cons o rest ih =>
    cases o <;> simp_all [acquiredVars, List.filterMap_cons]

theorem releasedVars_intEvts (l : List (Option SCIP_VAR)) :
    releasedVars
        (l.filterMap
          (Option.map fun v => MipEvent.transformVar v (SCIP_VAR.transOf v))) =
      [] := by
  unfold releasedVars
  rw [List.filterMap_eq_nil_iff]
  intro e he
  rw [List.mem_filterMap] at he
  obtain ⟨o, -, ho⟩ := he
  cases o <;> simp at ho
  rw [← ho]

theorem acquiredConss_intEvts (l : List (Option SCIP_VAR)) :
    acquiredConss
        (l.filterMap
          (Option.map fun v => MipEvent.transformVar v (SCIP_VAR.transOf v))) =
      [] := by
  unfold acquiredConss
  rw [List.filterMap_eq_nil_iff]
  intro e he
  rw [List.mem_filterMap] at he
  obtain ⟨o, -, ho⟩ := he
  cases o <;> simp at ho
  rw [← ho]

theorem releasedConss_intEvts (l : List (Option SCIP_VAR)) :
    releasedConss
        (l.filterMap
          (Option.map fun v => MipEvent.transformVar v (SCIP_VAR.transOf v))) =
      [] := by
  unfold releasedConss
  rw [List.filterMap_eq_nil_iff]
  intro e he
  rw [List.mem_filterMap] at he
  obtain ⟨o, -, ho⟩ := he
  cases o <;> simp at ho
  rw [← ho]

theorem count_intEvts (l : List (Option SCIP_VAR)) (e : MipEvent)
    (he : e = MipEvent.allocBlock ∨ e = MipEvent.freeBlock) :
    (l.filterMap
        (Option.map fun v => MipEvent.transformVar v (SCIP_VAR.transOf v))).count
        e = 0 := by
  rw [List.count_eq_zero]
  intro hmem
  rw [List.mem_filterMap] at hmem
  obtain ⟨o, -, ho⟩ := hmem
  rcases he with he | he <;> (subst he; cases o <;> simp at ho)

theorem releasedVars_releaseBools (d : ProblemData) (k : Nat) :
    releasedVars (releaseBoolsUpTo d k) =
      ((List.range k).filter d.is_pos_var).map d.bool_var := by
  induction k with
  | zero => rfl
  | succ k ih =>
    rw [List.range_succ]
    by_cases h : d.is_pos_var k <;>
      simp_all [releasedVars, releaseBoolsUpTo, List.filterMap_append,
        List.filter_append]

theorem acquiredVars_releaseBools (d : ProblemData) (k : Nat) :
    acquiredVars (releaseBoolsUpTo d k) = [] := by
  induction k with
  | zero => rfl
  | succ k ih =>
    by_cases h : d.is_pos_var k <;>
      simp_all [acquiredVars, releaseBoolsUpTo, List.filterMap_append]

theorem acquiredConss_releaseBools (d : ProblemData) (k : Nat) :
    acquiredConss (releaseBoolsUpTo d k) = [] := by
  induction k with
  | zero => rfl
  | succ k ih =>
    by_cases h : d.is_pos_var k <;>
      simp_all [acquiredConss, releaseBoolsUpTo, List.filterMap_append]

theorem releasedConss_releaseBools (d : ProblemData) (k : Nat) :
    releasedConss (releaseBoolsUpTo d k) = [] := by
  induction k with
  | zero => rfl
  | succ k ih =>
    by_cases h : d.is_pos_var k <;>
      simp_all [releasedConss, releaseBoolsUpTo, List.filterMap_append]

theorem count_releaseBools (d : ProblemData) (k : Nat) (e : MipEvent)
    (he : e = MipEvent.allocBlock ∨ e = MipEvent.freeBlock) :
    (releaseBoolsUpTo d k).count e = 0 := by
  rw [List.count_eq_zero]
  intro hmem
  rw [releaseBoolsUpTo_eq, List.mem_map] at hmem
  obtain ⟨i, -, hi⟩ := hmem
  rcases he with he | he <;> (subst he; simp at hi)

theorem releasedVars_releaseInts (l : List (Option SCIP_VAR)) :
    releasedVars (releaseIntsGo l) = l.filterMap id := by
  induction l with
  | nil => rfl
  | cons o rest ih =>
    cases o <;> simp_all [releasedVars, releaseIntsGo, List.filterMap_cons]

theorem acquiredVars_releaseInts (l : List (Option SCIP_VAR)) :
    acquiredVars (releaseIntsGo l) = [] := by
  induction l with
  | nil => rfl
  | cons o rest ih =>
    cases o <;> simp_all [acquiredVars, releaseIntsGo, List.filterMap_cons]

theorem acquiredConss_releaseInts (l : List (Option SCIP_VAR)) :
    acquiredConss (releaseIntsGo l) = [] := by
  induction l with
  | nil => rfl
  | cons o rest ih =>
    cases o <;> simp_all [acquiredConss, releaseIntsGo, List.filterMap_cons]

theorem releasedConss_releaseInts (l : List (Option SCIP_VAR)) :
    releasedConss (releaseIntsGo l) = [] := by
  induction l with
  | nil => rfl
  | cons o rest ih =>
    cases o <;> simp_all [releasedConss, releaseIntsGo, List.filterMap_cons]

theorem count_releaseInts (l : List (Option SCIP_VAR)) (e : MipEvent)
    (he : e = MipEvent.allocBlock ∨ e = MipEvent.freeBlock) :
    (releaseIntsGo l).count e = 0 := by
  rw [List.count_eq_zero]
  intro hmem
  rw [releaseIntsGo_eq, List.mem_filterMap] at hmem
  obtain ⟨o, -, ho⟩ := hmem
  rcases he with he | he <;> (subst he; cases o <;> simp at ho)

theorem filterMap_option_map {α β : Type} (f : α → β)
    (l : List (Option α)) :
    l.filterMap (Option.map f) = (l.filterMap id).map f := by
  induction l with
  | nil => rfl
  | cons o rest ih =>
    cases o <;> simp_all [List.filterMap_cons]

theorem acquiredVars_probtrans (d : ProblemData) (hinv : neg_table_inv d) :
    acquiredVars (callback_probtrans d).2 =
      ((List.range d.nb_bool_vars).filter d.is_pos_var).map
          (fun i => SCIP_VAR.transOf (d.bool_var i)) ++
        d.mip_int_vars.filterMap (Option.map SCIP_VAR.transOf) := by
  have hB := acquiredVars_boolEvts d d.nb_bool_vars
  have hI := acquiredVars_intEvts d.mip_int_vars
  have hC : acquiredVars
      ((d.cp_cons.map fun c =>
        MipEvent.transformCons c (SCIP_CONS.transOf c)).toList) = [] := by
    cases d.cp_cons <;> simp [acquiredVars, List.filterMap_cons]
  rw [probtrans_trace d hinv]
  unfold acquiredVars at hB hI hC ⊢
  simp only [List.filterMap_cons, List.filterMap_append, hB, hI, hC]
  simp

theorem acquiredConss_probtrans (d : ProblemData) (hinv : neg_table_inv d) :
    acquiredConss (callback_probtrans d).2 =
      (d.cp_cons.map SCIP_CONS.transOf).toList := by
  have hB := acquiredConss_boolEvts d d.nb_bool_vars
  have hI := acquiredConss_intEvts d.mip_int_vars
  have hC : acquiredConss
      ((d.cp_cons.map fun c =>
        MipEvent.transformCons c (SCIP_CONS.transOf c)).toList) =
      (d.cp_cons.map SCIP_CONS.transOf).toList := by
    cases d.cp_cons <;> simp [acquiredConss, List.filterMap_cons]
  rw [probtrans_trace d hinv]
  unfold acquiredConss at hB hI hC ⊢
  simp only [List.filterMap_cons, List.filterMap_append, hB, hI, hC]
  simp

theorem releasedVars_probtrans (d : ProblemData) (hinv : neg_table_inv d) :
    releasedVars (callback_probtrans d).2 = [] := by
  have hB := releasedVars_boolEvts d d.nb_bool_vars
  have hI := releasedVars_intEvts d.mip_int_vars
  have hC : releasedVars
      ((d.cp_cons.map fun c =>
        MipEvent.transformCons c (SCIP_CONS.transOf c)).toList) = [] := by
    cases d.cp_cons <;> simp [releasedVars, List.filterMap_cons]
  rw [probtrans_trace d hinv]
  unfold releasedVars at hB hI hC ⊢
  simp only [List.filterMap_cons, List.filterMap_append, hB, hI, hC]
  simp

theorem releasedConss_probtrans (d : ProblemData) (hinv : neg_table_inv d) :
    releasedConss (callback_probtrans d).2 = [] := by
  have hB := releasedConss_boolEvts d d.nb_bool_vars
  have hI := releasedConss_intEvts d.mip_int_vars
  have hC : releasedConss
      ((d.cp_cons.map fun c =>
        MipEvent.transformCons c (SCIP_CONS.transOf c)).toList) = [] := by
    cases d.cp_cons <;> simp [releasedConss, List.filterMap_cons]
  rw [probtrans_trace d hinv]
  unfold releasedConss at hB hI hC ⊢
  simp only [List.filterMap_cons, List.filterMap_append, hB, hI, hC]
  simp

theorem count_alloc_probtrans (d : ProblemData) (hinv : neg_table_inv d) :
    (callback_probtrans d).2.count MipEvent.allocBlock = 1 := by
  have hB := count_boolEvts d d.nb_bool_vars MipEvent.allocBlock (Or.inl rfl)
  have hI := count_intEvts d.mip_int_vars MipEvent.allocBlock (Or.inl rfl)
  have hC : ((d.cp_cons.map fun c =>
      MipEvent.transformCons c (SCIP_CONS.transOf c)).toList).count
      MipEvent.allocBlock = 0 := by
    cases d.cp_cons <;> simp [List.count_cons]
  rw [probtrans_trace d hinv]
  simp [List.count_cons, List.count_append, hB, hI, hC]

theorem count_free_probtrans (d : ProblemData) (hinv : neg_table_inv d) :
    (callback_probtrans d).2.count MipEvent.freeBlock = 0 := by
  have hB := count_boolEvts d d.nb_bool_vars MipEvent.freeBlock (Or.inr rfl)
  have hI := count_intEvts d.mip_int_vars MipEvent.freeBlock (Or.inr rfl)
  have hC : ((d.cp_cons.map fun c =>
      MipEvent.transformCons c (SCIP_CONS.transOf c)).toList).count
      MipEvent.freeBlock = 0 := by
    cases d.cp_cons <;> simp [List.count_cons]
  rw [probtrans_trace d hinv]
  simp [List.count_cons, List.count_append, hB, hI, hC]

theorem releasedVars_deltrans (d : ProblemData) :
    releasedVars (callback_probdeltrans d) =
      ((List.range d.nb_bool_vars).filter d.is_pos_var).map d.bool_var ++
        d.mip_int_vars.filterMap id := by
  have hB := releasedVars_releaseBools d d.nb_bool_vars
  have hI := releasedVars_releaseInts d.mip_int_vars
  have hC : releasedVars ((d.cp_cons.map MipEvent.releaseCons).toList) = [] := by
    cases d.cp_cons <;> simp [releasedVars, List.filterMap_cons]
  unfold callback_probdeltrans
  unfold releasedVars at hB hI hC ⊢
  simp only [List.filterMap_cons, List.filterMap_append, hB, hI, hC]
  simp

theorem acquiredVars_deltrans (d : ProblemData) :
    acquiredVars (callback_probdeltrans d) = [] := by
  have hB := acquiredVars_releaseBools d d.nb_bool_vars
  have hI := acquiredVars_releaseInts d.mip_int_vars
  have hC : acquiredVars ((d.cp_cons.map MipEvent.releaseCons).toList) = [] := by
    cases d.cp_cons <;> simp [acquiredVars, List.filterMap_cons]
  unfold callback_probdeltrans
  unfold acquiredVars at hB hI hC ⊢
  simp only [List.filterMap_cons, List.filterMap_append, hB, hI, hC]
  simp

theorem releasedConss_deltrans (d : ProblemData) :
    releasedConss (callback_probdeltrans d) = d.cp_cons.toList := by
  have hB := releasedConss_releaseBools d d.nb_bool_vars
  have hI := releasedConss_releaseInts d.mip_int_vars
  have hC : releasedConss ((d.cp_cons.map MipEvent.releaseCons).toList) =
      d.cp_cons.toList := by
    cases d.cp_cons <;> simp [releasedConss, List.filterMap_cons]
  unfold callback_probdeltrans
  unfold releasedConss at hB hI hC ⊢
  simp only [List.filterMap_cons, List.filterMap_append, hB, hI, hC]
  simp

theorem acquiredConss_deltrans (d : ProblemData) :
    acquiredConss (callback_probdeltrans d) = [] := by
  have hB := acquiredConss_releaseBools d d.nb_bool_vars
  have hI := acquiredConss_releaseInts d.mip_int_vars
  have hC : acquiredConss ((d.cp_cons.map MipEvent.releaseCons).toList) = [] := by
    cases d.cp_cons <;> simp [acquiredConss, List.filterMap_cons]
  unfold callback_probdeltrans
  unfold acquiredConss at hB hI hC ⊢
  simp only [List.filterMap_cons, List.filterMap_append, hB, hI, hC]
  simp

theorem count_free_deltrans (d : ProblemData) :
    (callback_probdeltrans d).count MipEvent.freeBlock = 1 := by
  have hB := count_releaseBools d d.nb_bool_vars MipEvent.freeBlock (Or.inr rfl)
  have hI := count_releaseInts d.mip_int_vars MipEvent.freeBlock (Or.inr rfl)
  have hC : ((d.cp_cons.map MipEvent.releaseCons).toList).count
      MipEvent.freeBlock = 0 := by
    cases d.cp_cons <;> simp [List.count_cons]
  unfold callback_probdeltrans
  simp [List.count_cons, List.count_append, hB, hI, hC]

theorem count_alloc_deltrans (d : ProblemData) :
    (callback_probdeltrans d).count MipEvent.allocBlock = 0 := by
  have hB := count_releaseBools d d.nb_bool_vars MipEvent.allocBlock (Or.inl rfl)
  have hI := count_releaseInts d.mip_int_vars MipEvent.allocBlock (Or.inl rfl)
  have hC : ((d.cp_cons.map MipEvent.releaseCons).toList).count
      MipEvent.allocBlock = 0 := by
    cases d.cp_cons <;> simp [List.count_cons]
  unfold callback_probdeltrans
  simp [List.count_cons, List.count_append, hB, hI, hC]

theorem ScipLedger.ext_parts (L1 L2 : ScipLedger) (hv : L1.vars = L2.vars)
    (hc : L1.conss = L2.conss) (hb : L1.blocks = L2.blocks) : L1 = L2 := by
  cases L1; cases L2; simp_all

theorem roundtrip_vars (d : ProblemData) (hinv : neg_table_inv d) :
    releasedVars (callback_probdeltrans (callback_probtrans d).1) =
      acquiredVars (callback_probtrans d).2 := by
  rw [releasedVars_deltrans, acquiredVars_probtrans d hinv]
  have hp : (callback_probtrans d).1.is_pos_var = d.is_pos_var :=
    funext (probtrans_data_is_pos d)
  rw [probtrans_data_nb, hp, (probtrans_bridge d).2.2.1, List.filterMap_map]
  congr 1
  · apply List.map_congr_left
    intro i hi
    rw [List.mem_filter] at hi
    obtain ⟨hir, hip⟩ := hi
    rw [List.mem_range] at hir
    exact probtrans_data_pos_slot d i hir hip

theorem roundtrip_conss (d : ProblemData) (hinv : neg_table_inv d) :
    releasedConss (callback_probdeltrans (callback_probtrans d).1) =
      acquiredConss (callback_probtrans d).2 := by
  rw [releasedConss_deltrans, acquiredConss_probtrans d hinv,
    (probtrans_bridge d).2.2.2.1]

theorem roundtrip_ledger (d : ProblemData) (hinv : neg_table_inv d)
    (L : ScipLedger) :
    applyTrace L
      ((callback_probtrans d).2 ++
        callback_probdeltrans (callback_probtrans d).1) = L := by
  rw [applyTrace_append]
  apply ScipLedger.ext_parts
  · rw [applyTrace_vars_of_no_acquire _ (acquiredVars_deltrans _),
      applyTrace_vars_of_no_release _ (releasedVars_probtrans d hinv),
      roundtrip_vars d hinv]
    exact foldl_erase_perm _ _ L.vars (List.reverse_perm _)
  · rw [applyTrace_conss_of_no_acquire _ (acquiredConss_deltrans _),
      applyTrace_conss_of_no_release _ (releasedConss_probtrans d hinv),
      roundtrip_conss d hinv]
    exact foldl_erase_perm _ _ L.conss (List.reverse_perm _)
  · rw [applyTrace_blocks_of_no_alloc _ (count_alloc_deltrans _),
      applyTrace_blocks_of_no_free _ (count_free_probtrans d hinv),
      count_alloc_probtrans d hinv, count_free_deltrans]
    omega

theorem getD_append_lt {α : Type} (l1 l2 : List α) (i : Nat) (dflt : α)
    (h : i < l1.length) : (l1 ++ l2).getD i dflt = l1.getD i dflt := by
  induction l1 generalizing i with
  | nil => simp at h
  | cons a l1 ih =>
    cases i with
    | zero => rfl
    | succ i => exact ih i (by simpa using h)

theorem getD_append_at_len {α : Type} (l : List α) (x : α) (dflt : α) :
    (l ++ [x]).getD l.length dflt = x := by
  induction l with
  | nil => rfl
  | cons a l ih => simpa using ih

theorem getD_of_le_length {α : Type} (l : List α) (i : Nat) (dflt : α)
    (h : l.length ≤ i) : l.getD i dflt = dflt := by
  induction l generalizing i with
  | nil => rfl
  | cons a l ih =>
    cases i with
    | zero => simp at h
    | succ i => exact ih i (by simpa using h)

theorem create_bool_inv (d : ProblemData) (name : String) (fid cid : Nat)
    (h : neg_table_inv d) :
    neg_table_inv (d.create_boolean_variable name fid cid) := by
  obtain ⟨hlen, hall⟩ := h
  have hnb : (d.create_boolean_variable name fid cid).nb_bool_vars =
      d.nb_bool_vars + 1 := by
    unfold ProblemData.create_boolean_variable ProblemData.nb_bool_vars
    simp
  have hidx : ∀ i, (d.create_boolean_variable name fid cid).neg_idx i =
      (d.mip_neg_vars_idx ++ [(d.nb_bool_vars : Int)]).getD i 0 := by
    intro i; rfl
  have hcast : ((d.create_boolean_variable name fid cid).nb_bool_vars : Int) =
      (d.nb_bool_vars : Int) + 1 := by
    rw [hnb]; push_cast; ring
  constructor
  · unfold ProblemData.create_boolean_variable ProblemData.nb_bool_vars
    unfold ProblemData.nb_bool_vars at hlen
    simp [hlen]
  · intro i hi
    rw [hnb] at hi
    by_cases hin : i < d.nb_bool_vars
    · have hkeep : (d.create_boolean_variable name fid cid).neg_idx i =
          d.neg_idx i := by
        rw [hidx]
        unfold ProblemData.neg_idx
        rw [getD_append_lt _ _ _ _ (by omega)]
      obtain ⟨h0, hub, hdisj⟩ := hall i hin
      refine ⟨by rw [hkeep]; exact h0, by rw [hkeep, hcast]; omega, ?_⟩
      rcases hdisj with hge | ⟨hlt, hp⟩
      · exact Or.inl (by rw [hkeep]; exact hge)
      · refine Or.inr ⟨by rw [hkeep]; exact hlt, ?_⟩
        have hplt : ((d.neg_idx i).toNat : Nat) < d.nb_bool_vars := by omega
        have harg : (d.neg_idx i).toNat < d.mip_neg_vars_idx.length := by
          omega
        have hkeep2 : (d.create_boolean_variable name fid cid).neg_idx
            (d.neg_idx i).toNat = d.neg_idx (d.neg_idx i).toNat := by
          rw [hidx, getD_append_lt _ _ _ _ harg]
          rfl
        rw [hkeep]
        unfold ProblemData.is_pos_var at hp ⊢
        rw [hkeep2]
        exact hp
    · have hieq : i = d.nb_bool_vars := by omega
      have hval : (d.create_boolean_variable name fid cid).neg_idx i =
          (d.nb_bool_vars : Int) := by
        rw [hidx, hieq, ← hlen]
        exact getD_append_at_len _ _ _
      subst hieq
      refine ⟨?_, ?_, ?_⟩
      · rw [hval]; exact_mod_cast Nat.zero_le _
      · rw [hval, hcast]; omega
      · exact Or.inl (by rw [hval])

theorem create_int_inv (d : ProblemData) (name : String) (lb ub : Int)
    (fid cid : Nat) (h : neg_table_inv d) :
    neg_table_inv (d.create_integer_variable name lb ub fid cid) :=
  h

theorem negate_fresh_inv (d : ProblemData) (i0 : Nat)
    (h : neg_table_inv d) (hi0 : i0 < d.nb_bool_vars)
    (x : SCIP_VAR) (ca : CpAtom) (nm : String) :
    neg_table_inv
      { d with
        mip_bool_vars := d.mip_bool_vars ++ [x]
        mip_neg_vars_idx :=
          (d.mip_neg_vars_idx.set i0 (d.nb_bool_vars : Int)) ++ [(i0 : Int)]
        cp_bool_vars := d.cp_bool_vars ++ [ca]
        bool_vars_name := d.bool_vars_name ++ [nm] } := by
  obtain ⟨hlen, hall⟩ := h
  set R : ProblemData :=
    { d with
      mip_bool_vars := d.mip_bool_vars ++ [x]
      mip_neg_vars_idx :=
        (d.mip_neg_vars_idx.set i0 (d.nb_bool_vars : Int)) ++ [(i0 : Int)]
      cp_bool_vars := d.cp_bool_vars ++ [ca]
      bool_vars_name := d.bool_vars_name ++ [nm] } with hR
  have hsetlen : (d.mip_neg_vars_idx.set i0 ((d.nb_bool_vars : Int))).length =
      d.nb_bool_vars := by
    rw [List.length_set]; exact hlen
  have hRnb : R.nb_bool_vars = d.nb_bool_vars + 1 := by
    rw [hR]; unfold ProblemData.nb_bool_vars; simp
  have hRidx : ∀ j, R.neg_idx j =
      ((d.mip_neg_vars_idx.set i0 ((d.nb_bool_vars : Int))) ++
        [(i0 : Int)]).getD j 0 := by
    intro j; rfl
  have hat_i0 : R.neg_idx i0 = (d.nb_bool_vars : Int) := by
    rw [hRidx, getD_append_lt _ _ _ _ (by omega), getD_set_eq _ _ _ _ (by omega)]
  have hat_new : R.neg_idx d.nb_bool_vars = (i0 : Int) := by
    rw [hRidx]
    nth_rewrite 2 [← hsetlen]
    exact getD_append_at_len _ _ _
  have hkeep : ∀ j, j < d.nb_bool_vars → j ≠ i0 → R.neg_idx j = d.neg_idx j := by
    intro j hj hne
    rw [hRidx, getD_append_lt _ _ _ _ (by omega), getD_set_ne _ _ _ _ _ hne]
    rfl
  have hposR_i0 : R.is_pos_var i0 = true := by
    unfold ProblemData.is_pos_var
    rw [hat_i0]
    simp
    omega
  constructor
  · rw [hRnb, hR]
    simp [hsetlen]
  · intro j hj
    rw [hRnb] at hj
    rcases Nat.lt_or_ge j d.nb_bool_vars with hjlt | hjge
    · by_cases hji : j = i0
      · subst hji
        refine ⟨by rw [hat_i0]; exact_mod_cast Nat.zero_le _, ?_, ?_⟩
        · rw [hat_i0, hRnb]; push_cast; omega
        · exact Or.inl (by rw [hat_i0]; exact_mod_cast Nat.le_of_lt hi0)
      · have hkj := hkeep j hjlt hji
        obtain ⟨h0, hub, hdisj⟩ := hall j hjlt
        refine ⟨by rw [hkj]; exact h0, by rw [hkj, hRnb]; push_cast; omega, ?_⟩
        rcases hdisj with hge | ⟨hlt, hp⟩
        · exact Or.inl (by rw [hkj]; exact hge)
        · refine Or.inr ⟨by rw [hkj]; exact hlt, ?_⟩
          have hplt : (d.neg_idx j).toNat < d.nb_bool_vars := by omega
          unfold ProblemData.is_pos_var at hp ⊢
          rw [hkj]
          by_cases hpi : (d.neg_idx j).toNat = i0
          · rw [hpi, hat_i0]
            simp
            omega
          · rw [hkeep _ hplt hpi]
            exact hp
    · have hjeq : j = d.nb_bool_vars := by omega
      subst hjeq
      refine ⟨by rw [hat_new]; exact_mod_cast Nat.zero_le _, ?_, ?_⟩
      · rw [hat_new, hRnb]; push_cast; omega
      · refine Or.inr ⟨by rw [hat_new]; push_cast; omega, ?_⟩
        have htn : ((i0 : Int)).toNat = i0 := by omega
        rw [hat_new, htn]
        exact hposR_i0

theorem negate_inv (d : ProblemData) (i0 : Nat) (h : neg_table_inv d) :
    ∀ r, d.negate i0 = Except.ok r → neg_table_inv r.1 := by
  intro r hr
  unfold ProblemData.negate at hr
  by_cases hcond : i0 < d.nb_bool_vars ∧ d.is_pos_var i0
  · rw [if_pos hcond] at hr
    by_cases heq : d.neg_idx i0 = (i0 : Int)
    · rw [if_pos heq] at hr
      injection hr with hr
      rw [← hr]
      exact negate_fresh_inv d i0 h hcond.1 _ _ _
    · rw [if_neg heq] at hr
      injection hr with hr
      rw [← hr]
      exact h
  · rw [if_neg hcond] at hr
    exact absurd hr (by simp)

theorem sentinels_lengths (d : ProblemData) (h : sentinels_ok d) :
    2 ≤ d.bool_vars_name.length ∧ 2 ≤ d.cp_bool_vars.length ∧
      1 ≤ d.int_vars_lb.length ∧ 1 ≤ d.int_vars_ub.length ∧
      1 ≤ d.cp_int_vars.length := by
  obtain ⟨hn0, hn1, hc0, hc1, -, -, -, -, -, hlb, hub, hcz, -⟩ := h
  refine ⟨?_, ?_, ?_, ?_, ?_⟩
  · by_contra hcon
    push_neg at hcon
    rw [getD_of_le_length _ _ _ (by omega)] at hn1
    exact absurd hn1 (by decide)
  · by_contra hcon
    push_neg at hcon
    rw [getD_of_le_length _ _ _ (by omega)] at hc1
    exact absurd hc1 (by decide)
  · by_contra hcon
    push_neg at hcon
    rw [getD_of_le_length _ _ _ (by omega)] at hlb
    exact absurd hlb (by decide)
  · by_contra hcon
    push_neg at hcon
    rw [getD_of_le_length _ _ _ (by omega)] at hub
    exact absurd hub (by decide)
  · by_contra hcon
    push_neg at hcon
    rw [getD_of_le_length _ _ _ (by omega)] at hcz
    exact absurd hcz (by decide)

theorem sentinels_create_bool (d : ProblemData) (name : String)
    (fid cid : Nat) (h : sentinels_ok d) :
    sentinels_ok (d.create_boolean_variable name fid cid) := by
  obtain ⟨hnm, hcp, -, -, -⟩ := sentinels_lengths d h
  obtain ⟨hn0, hn1, hc0, hc1, hbv, hg0, hg1, hnb, hnl, hlb, hub, hcz, hil⟩ := h
  have hbl : 2 ≤ d.mip_bool_vars.length := hnb
  refine ⟨?_, ?_, ?_, ?_, ?_, ?_, ?_, ?_, ?_, ?_, ?_, ?_, ?_⟩
  · show (d.bool_vars_name ++ [name]).getD 0 "" = "false"
    rw [getD_append_lt _ _ _ _ (by omega)]; exact hn0
  · show (d.bool_vars_name ++ [name]).getD 1 "" = "true"
    rw [getD_append_lt _ _ _ _ (by omega)]; exact hn1
  · show (d.cp_bool_vars ++ [CpAtom.atom cid]).getD 0 CpAtom.at_True =
      CpAtom.at_False
    rw [getD_append_lt _ _ _ _ (by omega)]; exact hc0
  · show (d.cp_bool_vars ++ [CpAtom.atom cid]).getD 1 CpAtom.at_False =
      CpAtom.at_True
    rw [getD_append_lt _ _ _ _ (by omega)]; exact hc1
  · show (d.mip_bool_vars ++ [SCIP_VAR.base fid]).getD 1 (SCIP_VAR.base 0) =
      SCIPgetNegatedVar ((d.mip_bool_vars ++ [SCIP_VAR.base fid]).getD 0
        (SCIP_VAR.base 0))
    rw [getD_append_lt _ _ _ _ (by omega), getD_append_lt _ _ _ _ (by omega)]
    exact hbv
  · show ((d.mip_neg_vars_idx ++ [(d.nb_bool_vars : Int)]).getD 0 0) = 1
    rw [getD_append_lt _ _ _ _ (by omega)]; exact hg0
  · show ((d.mip_neg_vars_idx ++ [(d.nb_bool_vars : Int)]).getD 1 0) = 0
    rw [getD_append_lt _ _ _ _ (by omega)]; exact hg1
  · show 2 ≤ (d.mip_bool_vars ++ [SCIP_VAR.base fid]).length
    rw [List.length_append]; omega
  · show 2 ≤ (d.mip_neg_vars_idx ++ [(d.nb_bool_vars : Int)]).length
    rw [List.length_append]; omega
  · exact hlb
  · exact hub
  · exact hcz
  · exact hil

theorem sentinels_negate (d : ProblemData) (i0 : Nat) (h : sentinels_ok d) :
    ∀ r, d.negate i0 = Except.ok r → sentinels_ok r.1 := by
  intro r hr
  unfold ProblemData.negate at hr
  by_cases hcond : i0 < d.nb_bool_vars ∧ d.is_pos_var i0
  · rw [if_pos hcond] at hr
    by_cases heq : d.neg_idx i0 = (i0 : Int)
    · rw [if_pos heq] at hr
      injection hr with hr
      rw [← hr]
      obtain ⟨hnm, hcp, -, -, -⟩ := sentinels_lengths d h
      obtain ⟨hn0, hn1, hc0, hc1, hbv, hg0, hg1, hnb, hnl, hlb, hub, hcz, hil⟩ := h
      have hi0ne0 : i0 ≠ 0 := by
        intro hcon; subst hcon
        rw [hg0] at heq
        exact absurd heq (by decide)
      have hi0ne1 : i0 ≠ 1 := by
        intro hcon; subst hcon
        rw [hg1] at heq
        exact absurd heq (by decide)
      have hbl : 2 ≤ d.mip_bool_vars.length := hnb
      refine ⟨?_, ?_, ?_, ?_, ?_, ?_, ?_, ?_, ?_, ?_, ?_, ?_, ?_⟩
      · show (d.bool_vars_name ++ _).getD 0 "" = "false"
        rw [getD_append_lt _ _ _ _ (by omega)]; exact hn0
      · show (d.bool_vars_name ++ _).getD 1 "" = "true"
        rw [getD_append_lt _ _ _ _ (by omega)]; exact hn1
      · show (d.cp_bool_vars ++ _).getD 0 CpAtom.at_True = CpAtom.at_False
        rw [getD_append_lt _ _ _ _ (by omega)]; exact hc0
      · show (d.cp_bool_vars ++ _).getD 1 CpAtom.at_False = CpAtom.at_True
        rw [getD_append_lt _ _ _ _ (by omega)]; exact hc1
      · show (d.mip_bool_vars ++ _).getD 1 (SCIP_VAR.base 0) =
          SCIPgetNegatedVar ((d.mip_bool_vars ++ _).getD 0 (SCIP_VAR.base 0))
        rw [getD_append_lt _ _ _ _ (by omega), getD_append_lt _ _ _ _ (by omega)]
        exact hbv
      · show ((d.mip_neg_vars_idx.set i0 (d.nb_bool_vars : Int)) ++
          [(i0 : Int)]).getD 0 0 = 1
        rw [getD_append_lt _ _ _ _ (by simp [List.length_set]; omega),
          getD_set_ne _ _ _ _ _ (Ne.symm hi0ne0)]
        exact hg0
      · show ((d.mip_neg_vars_idx.set i0 (d.nb_bool_vars : Int)) ++
          [(i0 : Int)]).getD 1 0 = 0
        rw [getD_append_lt _ _ _ _ (by simp [List.length_set]; omega),
          getD_set_ne _ _ _ _ _ (Ne.symm hi0ne1)]
        exact hg1
      · show 2 ≤ (d.mip_bool_vars ++ _).length
        rw [List.length_append]; omega
      · show 2 ≤ ((d.mip_neg_vars_idx.set i0 _) ++ _).length
        rw [List.length_append, List.length_set]; omega
      · exact hlb
      · exact hub
      · exact hcz
      · exact hil
    · rw [if_neg heq] at hr
      injection hr with hr
      rw [← hr]
      exact h
  · rw [if_neg hcond] at hr
    exact absurd hr (by simp)

theorem sentinels_create_int (d : ProblemData) (name : String) (lb ub : Int)
    (fid cid : Nat) (h : sentinels_ok d) :
    sentinels_ok (d.create_integer_variable name lb ub fid cid) := by
  obtain ⟨-, -, hl1, hu1, hz1⟩ := sentinels_lengths d h
  obtain ⟨hn0, hn1, hc0, hc1, hbv, hg0, hg1, hnb, hnl, hlb, hub, hcz, hil⟩ := h
  refine ⟨hn0, hn1, hc0, hc1, hbv, hg0, hg1, hnb, hnl, ?_, ?_, ?_, ?_⟩
  · show (d.int_vars_lb ++ [lb]).getD 0 1 = 0
    rw [getD_append_lt _ _ _ _ (by omega)]; exact hlb
  · show (d.int_vars_ub ++ [ub]).getD 0 1 = 0
    rw [getD_append_lt _ _ _ _ (by omega)]; exact hub
  · show (d.cp_int_vars ++ [(⟨cid, lb, ub⟩ : GeasIntVar)]).getD 0
      (⟨0, 1, 1⟩ : GeasIntVar) = (⟨0, 0, 0⟩ : GeasIntVar)
    rw [getD_append_lt _ _ _ _ (by omega)]; exact hcz
  · show 1 ≤ (d.mip_int_vars ++ _).length
    rw [List.length_append]; omega

theorem neg_entry_facts (d : ProblemData) (hinv : neg_table_inv d) (i : Nat)
    (hi : i < d.nb_bool_vars) (hneg : d.is_pos_var i = false) :
    d.neg_idx i < (i : Int) ∧ d.is_pos_var (d.neg_idx i).toNat = true := by
  obtain ⟨-, hall⟩ := hinv
  obtain ⟨h0, -, hdisj⟩ := hall i hi
  rcases hdisj with hge | ⟨hlt, hp⟩
  · exfalso
    unfold ProblemData.is_pos_var at hneg
    rw [decide_eq_false_iff_not] at hneg
    exact hneg hge
  · exact ⟨hlt, hp⟩

/-- Claim C1, as stated: for every index of the boolean-variable table the
aliasing index is in range and is either the index itself or a strictly
smaller index of an already-defined positive variable.  This fails at the
constructed model: the positive sentinel `false` at index 0 carries
`neg_idx[0] = 1`, which is neither 0 nor smaller than 0 (the constructor
records the index of the entry's negation, which for a positive entry lies
strictly above it). -/
theorem C1_counterexample :
    ¬ (∀ i, i < (Model.construct Method_MIP).1.probdata.nb_bool_vars →
        0 ≤ (Model.construct Method_MIP).1.probdata.neg_idx i ∧
          (Model.construct Method_MIP).1.probdata.neg_idx i <
            ((Model.construct Method_MIP).1.probdata.nb_bool_vars : Int) ∧
          ((Model.construct Method_MIP).1.probdata.neg_idx i = (i : Int) ∨
            ((Model.construct Method_MIP).1.probdata.neg_idx i < (i : Int) ∧
              (Model.construct Method_MIP).1.probdata.is_pos_var
                ((Model.construct Method_MIP).1.probdata.neg_idx i).toNat =
                true))) := by
  intro hcl
  have h := hcl 0 (by decide)
  revert h
  decide

/-- Claim C1 (amended): for every index of the boolean-variable table,
`0 ≤ neg_idx[i] < len`, and `neg_idx[i]` is either at least `i` (the entry
is a positive variable, equal to `i` exactly when no negation has been
created for it) or refers to an already-defined positive variable at a
strictly smaller index.  This holds after `Model` construction for every
method and is preserved by every table-extending operation
(`create_boolean_variable`, `negate`, `create_integer_variable`). -/
theorem C1_neg_table_invariant (method : Int) :
    neg_table_inv (Model.construct method).1.probdata ∧
      (∀ d name fid cid, neg_table_inv d →
        neg_table_inv (ProblemData.create_boolean_variable d name fid cid)) ∧
      (∀ d i r, neg_table_inv d → ProblemData.negate d i = Except.ok r →
        neg_table_inv r.1) ∧
      (∀ d name lb ub fid cid, neg_table_inv d →
        neg_table_inv (ProblemData.create_integer_variable d name lb ub fid cid)) := by
  refine ⟨?_, fun d name fid cid hd => create_bool_inv d name fid cid hd,
    fun d i r hd hr => negate_inv d i hd r hr,
    fun d name lb ub fid cid hd => create_int_inv d name lb ub fid cid hd⟩
  by_cases h : method = Method_BC
  · subst h; decide
  · simp [Model.construct, h]
    decide

theorem C1_neg_table_invariant_witness :
    neg_table_inv (Model.construct Method_BC).1.probdata ∧
      neg_table_inv
        (ProblemData.create_boolean_variable
          (Model.construct Method_BC).1.probdata "b" 2 1) :=
  ⟨(C1_neg_table_invariant Method_BC).1,
    (C1_neg_table_invariant Method_BC).2.1
      (Model.construct Method_BC).1.probdata "b" 2 1
      (C1_neg_table_invariant Method_BC).1⟩

/-- Claim C2: the on-transform callback walks the boolean table in
increasing index order; every positive entry is transformed into its
working-copy counterpart via the backend (`SCIPtransformVar`); every
aliased entry at index `i` is re-derived as the backend's complement of the
already-transformed positive variable at `neg_idx[i] < i`; every present
integer handle is transformed and absent handles are skipped.  The trace
equation exhibits the events in increasing index order. -/
theorem C2_probtrans_transforms (d : ProblemData) (hinv : neg_table_inv d) :
    (∀ i, i < d.nb_bool_vars → d.is_pos_var i = true →
      (callback_probtrans d).1.bool_var i = SCIP_VAR.transOf (d.bool_var i)) ∧
    (∀ i, i < d.nb_bool_vars → d.is_pos_var i = false →
      d.neg_idx i < (i : Int) ∧
        d.is_pos_var (d.neg_idx i).toNat = true ∧
        (callback_probtrans d).1.bool_var i =
          SCIPgetNegatedVar
            ((callback_probtrans d).1.bool_var (d.neg_idx i).toNat)) ∧
    (callback_probtrans d).1.mip_int_vars =
      d.mip_int_vars.map (Option.map SCIP_VAR.transOf) ∧
    (callback_probtrans d).2 =
      MipEvent.allocBlock ::
        ((d.cp_cons.map fun c =>
            MipEvent.transformCons c (SCIP_CONS.transOf c)).toList ++
          (List.range d.nb_bool_vars).map (transBoolEvent d) ++
          d.mip_int_vars.filterMap
            (Option.map fun v =>
              MipEvent.transformVar v (SCIP_VAR.transOf v))) := by
  refine ⟨probtrans_data_pos_slot d, ?_, (probtrans_bridge d).2.2.1,
    probtrans_trace d hinv⟩
  intro i hi hneg
  obtain ⟨hlt, hp⟩ := neg_entry_facts d hinv i hi hneg
  have htn : (d.neg_idx i).toNat < d.nb_bool_vars := by omega
  refine ⟨hlt, hp, ?_⟩
  rw [probtrans_data_neg_slot d hinv i hi hneg,
    probtrans_data_pos_slot d _ htn hp]

theorem C2_probtrans_transforms_witness :
    neg_table_inv (Model.construct Method_BC).1.probdata ∧
      (callback_probtrans (Model.construct Method_BC).1.probdata).1.bool_var 1 =
        SCIPgetNegatedVar
          ((callback_probtrans
            (Model.construct Method_BC).1.probdata).1.bool_var 0) :=
  ⟨by decide,
    ((C2_probtrans_transforms (Model.construct Method_BC).1.probdata
      (by decide)).2.1 1 (by decide) (by decide)).2.2⟩

/-- Claim C3: the on-detransform callback releases in this order: the
transformed propagation constraint if present, then the handle of every
positive boolean entry (indices in increasing order), then every present
integer handle, and finally destroys the duplicated problem data (the block
free); handles of aliased boolean entries are never released directly — the
released boolean handles are exactly those of the positive entries. -/
theorem C3_deltrans_release_order (d : ProblemData) :
    callback_probdeltrans d =
      (d.cp_cons.map MipEvent.releaseCons).toList ++
        ((List.range d.nb_bool_vars).filter d.is_pos_var).map
          (fun i => MipEvent.releaseVar (d.bool_var i)) ++
        d.mip_int_vars.filterMap (Option.map MipEvent.releaseVar) ++
        [MipEvent.freeBlock] ∧
      releasedVars (callback_probdeltrans d) =
        ((List.range d.nb_bool_vars).filter d.is_pos_var).map d.bool_var ++
          d.mip_int_vars.filterMap id := by
  refine ⟨?_, releasedVars_deltrans d⟩
  unfold callback_probdeltrans
  rw [releaseBoolsUpTo_eq, releaseIntsGo_eq]

/-- Claim C4: for every call to `minimize` with a valid method selector,
the CPU timer is started — the baseline `clock()` value and the time limit
are recorded in the model — after validating `time_limit > 0`; a
non-positive time limit aborts with the fatal contract-violation
diagnostic of `release_assert` instead of returning normally. -/
theorem C4_minimize_timer (m : Model) (obj_var : Int) (tl : ℚ) (now : Int)
    (hm : m.method = Method_BC ∨ m.method = Method_LBBD ∨
      m.method = Method_MIP ∨ m.method = Method_CP) :
    (0 < tl → m.minimize obj_var tl now =
      Except.ok (strategyFor m.method,
        { m with time_limit := tl, start_time := now })) ∧
    (tl ≤ 0 → m.minimize obj_var tl now =
      Except.error "Time limit is invalid") := by
  constructor
  · intro htl
    rcases hm with h | h | h | h <;>
      simp [Model.minimize, minimize_using, Model.start_timer, strategyFor, h,
        Method_BC, Method_LBBD, Method_MIP, Method_CP, htl, Except.map]
  · intro htl
    have hnlt : ¬ (0 < tl) := not_lt.mpr htl
    rcases hm with h | h | h | h <;>
      simp [Model.minimize, minimize_using, Model.start_timer, strategyFor, h,
        Method_BC, Method_LBBD, Method_MIP, Method_CP, hnlt, Except.map]

theorem C4_minimize_timer_witness :
    (0 : ℚ) < 5 ∧
      (Model.construct Method_BC).1.minimize 0 5 7 =
        Except.ok (strategyFor (Model.construct Method_BC).1.method,
          { (Model.construct Method_BC).1 with
              time_limit := 5, start_time := 7 }) :=
  ⟨by norm_num,
    (C4_minimize_timer (Model.construct Method_BC).1 0 5 7
      (Or.inl (by decide))).1 (by norm_num)⟩

/-- Claim C5: `minimize` dispatches to exactly one of the four strategies,
selected by the configured method (the strategy returned on a normal
return is the unique one determined by the selector, which must be one of
the four valid values), and a selector outside these four values aborts
with the `Invalid method` diagnostic rather than returning normally. -/
theorem C5_minimize_dispatch (m : Model) (obj_var : Int) (tl : ℚ) (now : Int) :
    ((m.method ≠ Method_BC ∧ m.method ≠ Method_LBBD ∧ m.method ≠ Method_MIP ∧
        m.method ≠ Method_CP) →
      m.minimize obj_var tl now =
        Except.error ("Invalid method " ++ toString m.method)) ∧
    (∀ s m2, m.minimize obj_var tl now = Except.ok (s, m2) →
      s = strategyFor m.method ∧
        (m.method = Method_BC ∨ m.method = Method_LBBD ∨
          m.method = Method_MIP ∨ m.method = Method_CP)) := by
  constructor
  · intro hbad
    obtain ⟨h1, h2, h3, h4⟩ := hbad
    simp [Model.minimize, h1, h2, h3, h4]
  · intro s m2 hok
    unfold Model.minimize minimize_using Model.start_timer at hok
    split_ifs at hok with hbc hlbbd hmip hcp htl htl htl htl <;>
      simp_all [strategyFor, Except.map]

theorem C5_minimize_dispatch_witness :
    (Model.construct 9).1.minimize 0 5 7 =
      Except.error ("Invalid method " ++ toString (Model.construct 9).1.method) :=
  (C5_minimize_dispatch (Model.construct 9).1 0 5 7).1
    ⟨by decide, by decide, by decide, by decide⟩

/-- Claim C6: destroying a `Model` on which `minimize` was never called
releases the propagation constraint handle (present exactly in
branch-and-cut mode) before any variable handle, then the positive boolean
variable handle (`false`, `base 0`) and the present integer variable handle
(`zero`, `base 1`), never issues a release for the aliased `true` entry,
and leaves the caller-handle ledger empty with zero outstanding block
allocations before the engines are torn down. -/
theorem C6_destructor (method : Int) :
    applyTrace emptyLedger
        ((Model.construct method).2 ++
          destructorEvents (Model.construct method).1.probdata) =
      emptyLedger ∧
      destructorEvents (Model.construct method).1.probdata =
        (if method = Method_BC then
          [MipEvent.releaseCons (SCIP_CONS.basic 0)]
         else []) ++
          [MipEvent.releaseVar (SCIP_VAR.base 0),
            MipEvent.releaseVar (SCIP_VAR.base 1), MipEvent.freeScip] ∧
      ((Model.construct method).1.probdata.cp_cons =
        if method = Method_BC then some (SCIP_CONS.basic 0) else none) ∧
      MipEvent.releaseVar ((Model.construct method).1.probdata.bool_var 1) ∉
        destructorEvents (Model.construct method).1.probdata := by
  by_cases h : method = Method_BC
  · subst h; decide
  · simp only [Model.construct, h, if_false]
    decide

/-- Claim C7: running the on-transform callback followed immediately by the
on-detransform callback is resource-neutral: the multiset of variable
handles released equals (here: as lists, elementwise) the handles acquired,
likewise for constraint handles, the single block allocation is freed
exactly once, and folding both traces over any starting ledger returns that
ledger unchanged — zero outstanding handles and block allocations. -/
theorem C7_roundtrip_neutrality (d : ProblemData) (hinv : neg_table_inv d) :
    releasedVars (callback_probdeltrans (callback_probtrans d).1) =
        acquiredVars (callback_probtrans d).2 ∧
      releasedConss (callback_probdeltrans (callback_probtrans d).1) =
        acquiredConss (callback_probtrans d).2 ∧
      (callback_probtrans d).2.count MipEvent.allocBlock = 1 ∧
      (callback_probdeltrans (callback_probtrans d).1).count
        MipEvent.freeBlock = 1 ∧
      ∀ L, applyTrace L
        ((callback_probtrans d).2 ++
          callback_probdeltrans (callback_probtrans d).1) = L :=
  ⟨roundtrip_vars d hinv, roundtrip_conss d hinv,
    count_alloc_probtrans d hinv, count_free_deltrans _,
    roundtrip_ledger d hinv⟩

theorem C7_roundtrip_neutrality_witness :
    neg_table_inv (Model.construct Method_BC).1.probdata ∧
      applyTrace emptyLedger
        ((callback_probtrans (Model.construct Method_BC).1.probdata).2 ++
          callback_probdeltrans
            (callback_probtrans (Model.construct Method_BC).1.probdata).1) =
        emptyLedger :=
  ⟨by decide,
    (C7_roundtrip_neutrality (Model.construct Method_BC).1.probdata
      (by decide)).2.2.2.2 emptyLedger⟩

/-- Claim C8: after construction boolean index 0 is the constant-false
sentinel, index 1 the constant-true sentinel (the aliased negation of
index 0), and integer index 0 the constant-zero variable with bounds
`[0,0]`, which is the objective variable at construction; the sentinel
facts are preserved by every later table-extending operation. -/
theorem C8_sentinels (method : Int) :
    sentinels_ok (Model.construct method).1.probdata ∧
      (Model.construct method).1.probdata.obj_var_idx = 0 ∧
      (∀ d name fid cid, sentinels_ok d →
        sentinels_ok (ProblemData.create_boolean_variable d name fid cid)) ∧
      (∀ d i r, sentinels_ok d → ProblemData.negate d i = Except.ok r →
        sentinels_ok r.1) ∧
      (∀ d name lb ub fid cid, sentinels_ok d →
        sentinels_ok (ProblemData.create_integer_variable d name lb ub fid cid)) := by
  refine ⟨?_, ?_,
    fun d name fid cid hd => sentinels_create_bool d name fid cid hd,
    fun d i r hd hr => sentinels_negate d i hd r hr,
    fun d name lb ub fid cid hd => sentinels_create_int d name lb ub fid cid hd⟩
  · by_cases h : method = Method_BC
    · subst h; decide
    · simp only [Model.construct, h, if_false]
      decide
  · by_cases h : method = Method_BC
    · subst h; decide
    · simp only [Model.construct, h, if_false]

theorem C8_sentinels_witness :
    sentinels_ok (Model.construct Method_BC).1.probdata ∧
      sentinels_ok
        (ProblemData.create_integer_variable
          (Model.construct Method_BC).1.probdata "x" 0 10 2 1) :=
  ⟨(C8_sentinels Method_BC).1,
    (C8_sentinels Method_BC).2.2.2.2
      (Model.construct Method_BC).1.probdata "x" 0 10 2 1
      (C8_sentinels Method_BC).1⟩

/-- Claim C9: after construction the two boolean sentinel entries are
mutually aliased — `neg_idx[0] = 1` and `neg_idx[1] = 0` — so the
constant-false entry at index 0 carries an aliasing index different from
its own index pointing to a strictly larger index, and
`neg_idx[neg_idx[i]] = i` holds for `i ∈ {0, 1}`. -/
theorem C9_mutual_aliasing (method : Int) :
    (Model.construct method).1.probdata.neg_idx 0 = 1 ∧
      (Model.construct method).1.probdata.neg_idx 1 = 0 ∧
      (Model.construct method).1.probdata.neg_idx 0 ≠ 0 ∧
      (0 : Int) < (Model.construct method).1.probdata.neg_idx 0 ∧
      (Model.construct method).1.probdata.neg_idx
        ((Model.construct method).1.probdata.neg_idx 0).toNat = 0 ∧
      (Model.construct method).1.probdata.neg_idx
        ((Model.construct method).1.probdata.neg_idx 1).toNat = 1 := by
  by_cases h : method = Method_BC
  · subst h; decide
  · simp only [Model.construct, h, if_false]
    decide

/-- Claim C10: a freshly constructed `Model`, before any `minimize` call,
has status `Unknown`, best objective `Infinity` (positive infinity),
objective bound negative infinity, and run time zero. -/
theorem C10_fresh_model_state (method : Int) :
    (Model.construct method).1.status = Status.Unknown ∧
      (Model.construct method).1.obj = Infinity ∧
      Infinity = FloatVal.posInf ∧
      (Model.construct method).1.obj_bound = FloatVal.negInf ∧
      (Model.construct method).1.run_time = 0 := by
  by_cases h : method = Method_BC
  · subst h; exact ⟨rfl, rfl, rfl, rfl, rfl⟩
  · simp [Model.construct, h, Infinity]

end Nutmeg
